import Mathlib

set_option maxRecDepth 40000

/-!
Verification of the PROJ.4 parameter codec in `rasterio/_crs.pyx`:
the `CRS` container's `to_string` (encode), `from_string` (decode),
`from_epsg` constructor, and the `all_proj_keys` parameter vocabulary.

The Python code is shallowly embedded as executable Lean functions.
Conventions of the embedding:
- Python `str` values are Lean `String`s; all string manipulation is done on
  `List Char` (the logical model of `String` in this Lean version) so that
  every definition kernel-reduces.
- Python floats are modelled as exact fractions (`PyFloat`, a normalized
  numerator/denominator pair).  Binary floating point rounding, `inf`/`nan`
  and the scientific-notation threshold of `repr(float)` are not modelled;
  Python floats are dyadic rationals, so every value that can actually occur
  has a finite decimal expansion, which is what `floatRepr` produces.
- Python `int()` / `float()` literal syntax is modelled for the base-10
  forms (optional sign, digits, decimal point, exponent); the rarely used
  underscore separators and non-ASCII digits are not modelled.
- JSON values (the `json.loads` path) are modelled by `JVal`; arrays and
  objects are encoded with their own cons constructors so that decidable
  equality can be derived.
- The three `CRSError` exceptions raised by the module and the `ValueError`
  of `from_epsg` are modelled by the `CRSError` inductive type.
-/

namespace Rasterio

/-- Left brace character, written via its code point. -/
def lbrace : Char := Char.ofNat 123

/-- Right brace character, written via its code point. -/
def rbrace : Char := Char.ofNat 125

/-- Whitespace in the sense of Python `str.split()` / `str.strip()`
(ASCII whitespace; Unicode whitespace is not modelled). -/
def pyWs (c : Char) : Bool :=
  c = ' ' || c = '\t' || c = '\n' || c = '\r' || c = '\x0b' || c = '\x0c'

/-- Helper for `splitWsChars`: `cur` is the current token, reversed. -/
def splitWsAux : List Char → List Char → List (List Char)
  | [], cur => if cur.isEmpty then [] else [cur.reverse]
  | c :: rest, cur =>
    if pyWs c then
      if cur.isEmpty then splitWsAux rest [] else cur.reverse :: splitWsAux rest []
    else splitWsAux rest (c :: cur)

/-- Python `str.split()` with no argument: split on runs of whitespace,
dropping empty tokens. -/
def splitWsChars (l : List Char) : List (List Char) := splitWsAux l []

/-- Python `str.split(sep)` for a one-character separator: split at every
occurrence of `sep`, keeping empty fields. -/
def splitOnChars (sep : Char) : List Char → List (List Char)
  | [] => [[]]
  | c :: rest =>
    if c = sep then [] :: splitOnChars sep rest
    else
      match splitOnChars sep rest with
      | [] => [[c]]
      | t :: ts => (c :: t) :: ts

/-- Python `sep.join(items)` at character-list level. -/
def interChars (sep : List Char) : List (List Char) → List Char
  | [] => []
  | [x] => x
  | x :: y :: rest => x ++ sep ++ interChars sep (y :: rest)

/-- Python `str.strip()` with no argument: remove leading and trailing
whitespace. -/
def pyStripChars (l : List Char) : List Char :=
  ((l.dropWhile pyWs).reverse.dropWhile pyWs).reverse

/-- Python `str.upper()` (ASCII letters only; enough for the `EPSG:` check). -/
def upperChars (l : List Char) : List Char := l.map Char.toUpper

/-- Python `str.startswith(p)`: `startsList p l` is true when `p` is an
initial segment of `l`. -/
def startsList : List Char → List Char → Bool
  | [], _ => true
  | _ :: _, [] => false
  | a :: as, b :: bs => a = b && startsList as bs

/-- The character of a single decimal digit. -/
def digitChar : Nat → Char
  | 0 => '0' | 1 => '1' | 2 => '2' | 3 => '3' | 4 => '4'
  | 5 => '5' | 6 => '6' | 7 => '7' | 8 => '8' | 9 => '9'
  | _ => '*'

/-- Numeric value of a decimal digit character. -/
def charDigit (c : Char) : Nat := c.toNat - 48

/-- Value of a big-endian decimal digit string (total; callers guarantee the
characters are digits). -/
def digitsNatR (l : List Char) : Nat := l.foldl (fun a c => a * 10 + charDigit c) 0

/-- Accumulating decimal parser: fails on the first non-digit character. -/
def digitsValAux : Nat → List Char → Option Nat
  | acc, [] => some acc
  | acc, c :: r => if c.isDigit then digitsValAux (acc * 10 + charDigit c) r else none

/-- Parse a nonempty all-digit string to its value, as `int(s)` does after
sign handling. -/
def digitsVal (l : List Char) : Option Nat :=
  if l.isEmpty then none else digitsValAux 0 l

/-- Python `int(s)` on a string: optional surrounding whitespace, optional
sign, one or more decimal digits, nothing else. -/
def pyIntParse (s : String) : Option Int :=
  match pyStripChars s.toList with
  | [] => none
  | c :: r =>
    if c = '+' then (digitsVal r).map (fun n => Int.ofNat n)
    else if c = '-' then (digitsVal r).map (fun n => -Int.ofNat n)
    else (digitsVal (c :: r)).map (fun n => Int.ofNat n)

/-- Decimal digits of `n`, most significant first; `fuel` bounds the
recursion depth (any `fuel > n` is enough). -/
def natReprAux : Nat → Nat → List Char
  | 0, _ => []
  | fuel + 1, n => if n < 10 then [digitChar n] else natReprAux fuel (n / 10) ++ [digitChar (n % 10)]

/-- Decimal digits of `n`, most significant first. -/
def natRepr (n : Nat) : List Char := natReprAux (n + 1) n

/-- Python `str(n)` for an integer. -/
def intRepr (n : Int) : String :=
  String.mk (if n < 0 then '-' :: natRepr n.natAbs else natRepr n.natAbs)

/-- A Python float value, modelled as an exact fraction (Python floats are
dyadic rationals, so this model is faithful up to binary rounding, which the
codec never performs).  Values built by `pfNorm` are in lowest terms. -/
structure PyFloat where
  num : Int
  den : Nat
  deriving DecidableEq, Repr

/-- Normalize a fraction to lowest terms. -/
def pfNorm (n : Int) (d : Nat) : PyFloat :=
  if Nat.gcd n.natAbs d = 0 then ⟨0, 0⟩
  else ⟨n / Int.ofNat (Nat.gcd n.natAbs d), d / Nat.gcd n.natAbs d⟩

/-- The float is a genuine normalized fraction: positive denominator and
coprime numerator, as every value built by `pfNorm` from a nonzero
denominator is. -/
def pfCanon (f : PyFloat) : Bool := f.den ≠ 0 && Nat.gcd f.num.natAbs f.den = 1

/-- Least exponent `k` with `d ∣ 10 ^ k`, when one exists (it does exactly
when `d` has no prime factor besides 2 and 5, i.e. for every denominator of
a Python float). -/
def pow10Exp (d : Nat) : Option Nat :=
  (List.range (d + 1)).find? (fun k => decide (d ∣ 10 ^ k))

/-- All-digit span at the front of a string: `(takeWhile isDigit, rest)`. -/
def spanDigits (l : List Char) : List Char × List Char :=
  (l.takeWhile Char.isDigit, l.dropWhile Char.isDigit)

/-- The numerator scaled so the denominator becomes `10 ^ k`. -/
def floatNum (f : PyFloat) (k : Nat) : Int := f.num * Int.ofNat (10 ^ k / f.den)

/-- The digit string of the scaled numerator, zero-padded so that a digit is
left of the decimal point. -/
def floatPad (f : PyFloat) (k : Nat) : List Char :=
  List.replicate (k + 1 - (natRepr (floatNum f k).natAbs).length) '0' ++
    natRepr (floatNum f k).natAbs

/-- Decimal rendering of a float given the exponent `k` of its denominator:
sign, then the padded digits with a point inserted `k` places from the
right. -/
def floatReprDec (f : PyFloat) (k : Nat) : String :=
  String.mk ((if f.num < 0 then ['-'] else []) ++
    (floatPad f k).take ((floatPad f k).length - k) ++
      '.' :: (floatPad f k).drop ((floatPad f k).length - k))

/-- Python `str(f)` for a float: shortest exact decimal form, with `.0`
appended to integral values.  (CPython switches to scientific notation for
very large or very small magnitudes; that cosmetic threshold is not
modelled.  The fallback branch is unreachable for values of Python floats,
whose denominators always divide a power of ten.) -/
def floatRepr (f : PyFloat) : String :=
  if f.den = 1 then intRepr f.num ++ ".0"
  else
    match pow10Exp f.den with
    | some k => floatReprDec f k
    | none => intRepr f.num ++ "/" ++ String.mk (natRepr f.den)

/-- Sign handling of Python numeric literal parsing: an optional single
leading `+` or `-`. -/
def pySignSplit (l : List Char) : Int × List Char :=
  match l with
  | [] => (1, [])
  | c :: r =>
    if c = '+' then (1, r)
    else if c = '-' then (-1, r)
    else (1, c :: r)

/-- The mantissa value of a float literal: integer digits `ip`, fraction
digits `fp`, with the given sign. -/
def floatMant (sgn : Int) (ip fp : List Char) : Int :=
  sgn * (Int.ofNat (digitsNatR ip) * (10 : Int) ^ fp.length + Int.ofNat (digitsNatR fp))

/-- Last stage of `float(s)`: after the sign, integer digits `ip` and
fraction digits `fp` have been consumed; `rest` must be empty or a
well-formed exponent, and at least one mantissa digit is required. -/
def pyFloatFin (sgn : Int) (ip fp rest : List Char) : Option PyFloat :=
  if ip.isEmpty && fp.isEmpty then none
  else
    match rest with
    | [] => some (pfNorm (floatMant sgn ip fp) (10 ^ fp.length))
    | e :: r3 =>
      if e = 'e' || e = 'E' then
        if (spanDigits (pySignSplit r3).2).1.isEmpty
            || !(spanDigits (pySignSplit r3).2).2.isEmpty then none
        else
          if (pySignSplit r3).1 = 1 then
            some (pfNorm (floatMant sgn ip fp *
              (10 : Int) ^ digitsNatR (spanDigits (pySignSplit r3).2).1) (10 ^ fp.length))
          else
            some (pfNorm (floatMant sgn ip fp)
              (10 ^ (fp.length + digitsNatR (spanDigits (pySignSplit r3).2).1)))
      else none

/-- After the integer digits: an optional `.` followed by fraction digits. -/
def pyFloatFrac (sgn : Int) (ip r1 : List Char) : Option PyFloat :=
  match r1 with
  | [] => pyFloatFin sgn ip [] []
  | c :: r =>
    if c = '.' then pyFloatFin sgn ip (spanDigits r).1 (spanDigits r).2
    else pyFloatFin sgn ip [] (c :: r)

/-- Python `float(s)` on a string: optional surrounding whitespace, optional
sign, decimal digits with optional fraction part, optional exponent.
(`inf`, `infinity` and `nan` are not modelled.) -/
def pyFloatParse (s : String) : Option PyFloat :=
  pyFloatFrac (pySignSplit (pyStripChars s.toList)).1
    (spanDigits (pySignSplit (pyStripChars s.toList)).2).1
    (spanDigits (pySignSplit (pyStripChars s.toList)).2).2

end Rasterio

namespace Rasterio

/-- A JSON value, as produced by `json.loads`.  Arrays and objects carry
their elements through dedicated cons constructors (instead of nested
`List`s) so that decidable equality can be derived.  JSON numbers become
Python ints when written without fraction or exponent, floats otherwise. -/
inductive JVal where
  | jnull
  | jbool (b : Bool)
  | jint (n : Int)
  | jfloat (f : PyFloat)
  | jstr (s : String)
  | jarrNil
  | jarrCons (head : JVal) (tail : JVal)
  | jobjNil
  | jobjCons (key : String) (val : JVal) (tail : JVal)
  deriving DecidableEq, Repr

/-- A Python value as it can appear in a CRS parameter mapping: one of the
four scalar types the codec produces, plus `None` and structured values
(`pobj`, wrapping a JSON-shaped list or dict) which `to_string` must
exclude. -/
inductive PVal where
  | pbool (b : Bool)
  | pint (n : Int)
  | pfloat (f : PyFloat)
  | pstr (s : String)
  | pnone
  | pobj (j : JVal)
  deriving DecidableEq, Repr

/-- The errors raised by the module: the three `CRSError`s of `from_string`
and the `ValueError`s of `from_epsg` (one raised by `int(code)` on a
non-integer argument, one raised explicitly for non-positive codes; the
spec calls both `InvalidEPSGCode`). -/
inductive CRSError where
  | invalidJSON
  | emptyJSON
  | emptyOrInvalid (input : String)
  | invalidEPSG
  deriving DecidableEq, Repr

/-- A successful `from_string` result: a `CRS` mapping (PROJ.4 and EPSG
paths) or the JSON value returned verbatim by the JSON path. -/
inductive Decoded where
  | crs (m : List (String × PVal))
  | js (v : JVal)
  deriving DecidableEq, Repr

/-- The `from_epsg` argument, per its documented signature: a string or an
integer. -/
inductive EpsgCode where
  | ofStr (s : String)
  | ofInt (n : Int)
  deriving DecidableEq, Repr

/-- The lines of the `_param_data` table (the source holds them in one
triple-quoted string and immediately splits it on newlines; the list of
lines, including the empty first and last line produced by that split, is
embedded directly). -/
def _param_data_lines : List String := [
  "",
  "+a         Semimajor radius of the ellipsoid axis",
  "+alpha     ? Used with Oblique Mercator and possibly a few others",
  "+axis      Axis orientation (new in 4.8.0)",
  "+b         Semiminor radius of the ellipsoid axis",
  "+datum     Datum name (see `proj -ld`)",
  "+ellps     Ellipsoid name (see `proj -le`)",
  "+init      Initialize from a named CRS",
  "+k         Scaling factor (old name)",
  "+k_0       Scaling factor (new name)",
  "+lat_0     Latitude of origin",
  "+lat_1     Latitude of first standard parallel",
  "+lat_2     Latitude of second standard parallel",
  "+lat_ts    Latitude of true scale",
  "+lon_0     Central meridian",
  "+lonc      ? Longitude used with Oblique Mercator and possibly a few others",
  "+lon_wrap  Center longitude to use for wrapping (see below)",
  "+nadgrids  Filename of NTv2 grid file to use for datum transforms (see below)",
  "+no_defs   Don't use the /usr/share/proj/proj_def.dat defaults file",
  "+over      Allow longitude output outside -180 to 180 range, disables wrapping (see below)",
  "+pm        Alternate prime meridian (typically a city name, see below)",
  "+proj      Projection name (see `proj -l`)",
  "+south     Denotes southern hemisphere UTM zone",
  "+to_meter  Multiplier to convert map units to 1.0m",
  "+towgs84   3 or 7 term datum transform parameters (see below)",
  "+units     meters, US survey feet, etc.",
  "+vto_meter vertical conversion to meters.",
  "+vunits    vertical units.",
  "+x_0       False easting",
  "+y_0       False northing",
  "+zone      UTM zone",
  "+a         Semimajor radius of the ellipsoid axis",
  "+alpha     ? Used with Oblique Mercator and possibly a few others",
  "+azi",
  "+b         Semiminor radius of the ellipsoid axis",
  "+belgium",
  "+beta",
  "+czech",
  "+e         Eccentricity of the ellipsoid = sqrt(1 - b^2/a^2) = sqrt( f*(2-f) )",
  "+ellps     Ellipsoid name (see `proj -le`)",
  "+es        Eccentricity of the ellipsoid squared",
  "+f         Flattening of the ellipsoid (often presented as an inverse, e.g. 1/298)",
  "+gamma",
  "+geoc",
  "+guam",
  "+h",
  "+k         Scaling factor (old name)",
  "+K",
  "+k_0       Scaling factor (new name)",
  "+lat_0     Latitude of origin",
  "+lat_1     Latitude of first standard parallel",
  "+lat_2     Latitude of second standard parallel",
  "+lat_b",
  "+lat_t",
  "+lat_ts    Latitude of true scale",
  "+lon_0     Central meridian",
  "+lon_1",
  "+lon_2",
  "+lonc      ? Longitude used with Oblique Mercator and possibly a few others",
  "+lsat",
  "+m",
  "+M",
  "+n",
  "+no_cut",
  "+no_off",
  "+no_rot",
  "+ns",
  "+o_alpha",
  "+o_lat_1",
  "+o_lat_2",
  "+o_lat_c",
  "+o_lat_p",
  "+o_lon_1",
  "+o_lon_2",
  "+o_lon_c",
  "+o_lon_p",
  "+o_proj",
  "+over",
  "+p",
  "+path",
  "+proj      Projection name (see `proj -l`)",
  "+q",
  "+R",
  "+R_a",
  "+R_A       Compute radius such that the area of the sphere is the same as the area of the ellipsoid",
  "+rf        Reciprocal of the ellipsoid flattening term (e.g. 298)",
  "+R_g",
  "+R_h",
  "+R_lat_a",
  "+R_lat_g",
  "+rot",
  "+R_V",
  "+s",
  "+south     Denotes southern hemisphere UTM zone",
  "+sym",
  "+t",
  "+theta",
  "+tilt",
  "+to_meter  Multiplier to convert map units to 1.0m",
  "+units     meters, US survey feet, etc.",
  "+vopt",
  "+W",
  "+westo",
  "+x_0       False easting",
  "+y_0       False northing",
  "+zone      UTM zone",
  ""
]

/-- `line.split()[0]` of a table line: skip leading whitespace, take the
first whitespace-delimited token. -/
def firstTok (s : String) : String :=
  String.mk ((s.toList.dropWhile pyWs).takeWhile (fun c => !pyWs c))

/-- `all_proj_keys`: for each line of the table longer than one character,
`line.split()[0].lstrip("+").strip()`, deduplicated (the source goes
through a Python `set`, whose order is unspecified; `eraseDups` keeps first
occurrences, which is one valid order), plus the literal extra key
`"no_mayo"`. -/
def all_proj_keys : List String :=
  (((_param_data_lines.filter (fun x => x.length > 1)).map
    (fun line => String.mk (pyStripChars ((firstTok line).toList.dropWhile (fun c => c = '+'))))).eraseDups)
  ++ ["no_mayo"]

end Rasterio

namespace Rasterio

/-- Python truthiness of a JSON value (`bool(val)`). -/
def jTruthyB : JVal → Bool
  | .jnull => false
  | .jbool b => b
  | .jint n => n ≠ 0
  | .jfloat f => f.num ≠ 0
  | .jstr s => !s.toList.isEmpty
  | .jarrNil => false
  | .jarrCons _ _ => true
  | .jobjNil => false
  | .jobjCons _ _ _ => true

/-- Python truthiness of a mapping value. -/
def pyTruthy : PVal → Bool
  | .pbool b => b
  | .pint n => n ≠ 0
  | .pfloat f => f.num ≠ 0
  | .pstr s => !s.toList.isEmpty
  | .pnone => false
  | .pobj j => jTruthyB j

/-- Python `v == 0` (`False == 0` holds; `True == 1` does not equal 0). -/
def pyEqZero : PVal → Bool
  | .pbool b => !b
  | .pint n => n = 0
  | .pfloat f => f.num = 0
  | _ => false

/-- `v is False` (CPython identity with the `False` singleton). -/
def isFalseB : PVal → Bool
  | .pbool false => true
  | _ => false

/-- `v is True` (CPython identity with the `True` singleton). -/
def isTrueB : PVal → Bool
  | .pbool true => true
  | _ => false

/-- `isinstance(v, (bool, int, float)) or isinstance(v, string_types)`. -/
def isScalar : PVal → Bool
  | .pbool _ => true
  | .pint _ => true
  | .pfloat _ => true
  | .pstr _ => true
  | _ => false

/-- Python `str(v)` for the values this module passes to `str` (structured
values never reach `str` here: `to_string` filters them out first). -/
def pyStr : PVal → String
  | .pbool true => "True"
  | .pbool false => "False"
  | .pint n => intRepr n
  | .pfloat f => floatRepr f
  | .pstr s => s
  | .pnone => "None"
  | .pobj _ => ""

/-- The scalar-typing helper `parse` nested in `CRS.from_string`. -/
def parse (v : String) : PVal :=
  if v = "True" || v = "true" then .pbool true
  else if v = "False" || v = "false" then .pbool false
  else
    match pyIntParse v with
    | some n => .pint n
    | none =>
      match pyFloatParse v with
      | some f => .pfloat f
      | none => .pstr v

/-- One token of the PROJ.4 path: `p.split('=')`; a two-element result gives
`(kv[0], parse(kv[1]))`, anything else gives `(kv[0], True)` (the source's
`len(kv) == 2 and (kv[0], parse(kv[1])) or (kv[0], True)`; the and/or trick
picks the tuple because tuples are truthy). -/
def tokenItem (p : List Char) : String × PVal :=
  match splitOnChars '=' p with
  | [a, b] => (String.mk a, parse (String.mk b))
  | kv => (String.mk (kv.headD []), PVal.pbool true)

/-- One step of Python dict construction: if the key is present, replace its
value in place; otherwise append the pair. -/
def dictInsert {α : Type} : List (String × α) → String → α → List (String × α)
  | [], k, v => [(k, v)]
  | (k0, v0) :: rest, k, v =>
    if k0 = k then (k0, v) :: rest else (k0, v0) :: dictInsert rest k v

/-- Python `dict(pairs)`: insertion-ordered, last value wins per key. -/
def dictOfPairs {α : Type} (l : List (String × α)) : List (String × α) :=
  l.foldl (fun m kv => dictInsert m kv.1 kv.2) []

/-- JSON whitespace (RFC 8259). -/
def jsonWs (c : Char) : Bool := c = ' ' || c = '\t' || c = '\n' || c = '\r'

/-- Hexadecimal digit value. -/
def hexVal (c : Char) : Option Nat :=
  if c.isDigit then some (c.toNat - 48)
  else if 'a' ≤ c && c ≤ 'f' then some (c.toNat - 87)
  else if 'A' ≤ c && c ≤ 'F' then some (c.toNat - 55)
  else none

/-- Body of a JSON string after the opening quote; `acc` holds the decoded
characters reversed.  With `strict=False` (as the source passes) control
characters are allowed unescaped, hence no character is rejected.  Lone
surrogates from `\uXXXX` escapes are not modelled. -/
def jStrAux : Nat → List Char → List Char → Option (List Char × List Char)
  | 0, _, _ => none
  | _ + 1, [], _ => none
  | fuel + 1, c :: r, acc =>
    if c = '"' then some (acc.reverse, r)
    else if c = '\\' then
      match r with
      | [] => none
      | e :: r2 =>
        if e = '"' then jStrAux fuel r2 ('"' :: acc)
        else if e = '\\' then jStrAux fuel r2 ('\\' :: acc)
        else if e = '/' then jStrAux fuel r2 ('/' :: acc)
        else if e = 'b' then jStrAux fuel r2 ('\x08' :: acc)
        else if e = 'f' then jStrAux fuel r2 ('\x0c' :: acc)
        else if e = 'n' then jStrAux fuel r2 ('\n' :: acc)
        else if e = 'r' then jStrAux fuel r2 ('\r' :: acc)
        else if e = 't' then jStrAux fuel r2 ('\t' :: acc)
        else if e = 'u' then
          match r2 with
          | h1 :: h2 :: h3 :: h4 :: r3 =>
            match hexVal h1, hexVal h2, hexVal h3, hexVal h4 with
            | some a, some b, some c2, some d =>
              jStrAux fuel r3 (Char.ofNat (((a * 16 + b) * 16 + c2) * 16 + d) :: acc)
            | _, _, _, _ => none
          | _ => none
        else none
    else jStrAux fuel r (c :: acc)

/-- Rebuild a JSON object from an ordered member list. -/
def jobjOfList (l : List (String × JVal)) : JVal :=
  l.foldr (fun kv t => JVal.jobjCons kv.1 kv.2 t) JVal.jobjNil

/-- Rebuild a JSON array from an element list. -/
def jarrOfList (l : List JVal) : JVal :=
  l.foldr JVal.jarrCons JVal.jarrNil

/-- Finish a JSON number: optional exponent, then build the value.  Numbers
without fraction or exponent become Python ints, all others floats
(`NaN`/`Infinity`, which CPython's decoder also accepts, are not
modelled). -/
def jNumFin (sgn : Int) (ip fp : List Char) (isFloat : Bool) (rest : List Char) :
    Option (JVal × List Char) :=
  let mant : Int := sgn * ((digitsNatR ip : Int) * (10 : Int) ^ fp.length + (digitsNatR fp : Int))
  let plain : Option (JVal × List Char) :=
    if isFloat then some (.jfloat (pfNorm mant (10 ^ fp.length)), rest)
    else some (.jint (sgn * (digitsNatR ip : Int)), rest)
  match rest with
  | c :: r =>
    if c = 'e' || c = 'E' then
      let er : Bool × List Char :=
        match r with
        | '+' :: rr => (true, rr)
        | '-' :: rr => (false, rr)
        | rr => (true, rr)
      let edr := spanDigits er.2
      if edr.1.isEmpty then none
      else
        let ev := digitsNatR edr.1
        if er.1 then some (.jfloat (pfNorm (mant * (10 : Int) ^ ev) (10 ^ fp.length)), edr.2)
        else some (.jfloat (pfNorm mant (10 ^ (fp.length + ev))), edr.2)
    else plain
  | [] => plain

/-- A JSON number: optional minus, integer part without leading zeros,
optional fraction, optional exponent. -/
def jNum (l : List Char) : Option (JVal × List Char) :=
  let sl : Int × List Char :=
    match l with
    | '-' :: r => (-1, r)
    | r => (1, r)
  let ipr := spanDigits sl.2
  if ipr.1.isEmpty then none
  else if 1 < ipr.1.length && ipr.1.headD ' ' = '0' then none
  else
    match ipr.2 with
    | '.' :: r =>
      let fpr := spanDigits r
      if fpr.1.isEmpty then none else jNumFin sl.1 ipr.1 fpr.1 true fpr.2
    | r2 => jNumFin sl.1 ipr.1 [] false r2

mutual

/-- Parse one JSON value (recursive descent over `List Char`, fuel-bounded;
any fuel exceeding the input length suffices). -/
def jValue : Nat → List Char → Option (JVal × List Char)
  | 0, _ => none
  | fuel + 1, l =>
    match l.dropWhile jsonWs with
    | [] => none
    | c :: r =>
      if c = lbrace then
        match r.dropWhile jsonWs with
        | c2 :: r2 =>
          if c2 = rbrace then some (.jobjNil, r2)
          else
            match jMembers fuel (c2 :: r2) with
            | some (ms, r3) => some (jobjOfList (dictOfPairs ms), r3)
            | none => none
        | [] => none
      else if c = '[' then
        match r.dropWhile jsonWs with
        | c2 :: r2 =>
          if c2 = ']' then some (.jarrNil, r2)
          else
            match jElems fuel (c2 :: r2) with
            | some (vs, r3) => some (jarrOfList vs, r3)
            | none => none
        | [] => none
      else if c = '"' then
        match jStrAux fuel r [] with
        | some (cs, r2) => some (.jstr (String.mk cs), r2)
        | none => none
      else if startsList "true".toList (c :: r) then some (.jbool true, (c :: r).drop 4)
      else if startsList "false".toList (c :: r) then some (.jbool false, (c :: r).drop 5)
      else if startsList "null".toList (c :: r) then some (.jnull, (c :: r).drop 4)
      else jNum (c :: r)

/-- Parse the members of a JSON object, positioned at the first key. -/
def jMembers : Nat → List Char → Option (List (String × JVal) × List Char)
  | 0, _ => none
  | fuel + 1, l =>
    match l.dropWhile jsonWs with
    | '"' :: r =>
      match jStrAux fuel r [] with
      | none => none
      | some (kcs, r2) =>
        match r2.dropWhile jsonWs with
        | ':' :: r3 =>
          match jValue fuel r3 with
          | none => none
          | some (v, r4) =>
            match r4.dropWhile jsonWs with
            | ',' :: r5 =>
              match jMembers fuel r5 with
              | none => none
              | some (ms, r6) => some ((String.mk kcs, v) :: ms, r6)
            | c :: r5 =>
              if c = rbrace then some ([(String.mk kcs, v)], r5) else none
            | [] => none
        | _ => none
    | _ => none

/-- Parse the elements of a JSON array, positioned at the first element. -/
def jElems : Nat → List Char → Option (List JVal × List Char)
  | 0, _ => none
  | fuel + 1, l =>
    match jValue fuel l with
    | none => none
    | some (v, r) =>
      match r.dropWhile jsonWs with
      | ',' :: r2 =>
        match jElems fuel r2 with
        | none => none
        | some (vs, r3) => some (v :: vs, r3)
      | ']' :: r2 => some ([v], r2)
      | _ => none

end

/-- `json.loads(s, strict=False)`: parse one value, allow surrounding
whitespace, require the whole input to be consumed. -/
def jsonLoads (s : String) : Option JVal :=
  match jValue (s.toList.length + 8) s.toList with
  | some (v, rest) => if (rest.dropWhile jsonWs).isEmpty then some v else none
  | none => none

end Rasterio

namespace Rasterio

/-- `int(code)` of the `from_epsg` argument. -/
def epsgToInt : EpsgCode → Option Int
  | .ofStr s => pyIntParse s
  | .ofInt n => some n

/-- `"%s" % code` of the `from_epsg` argument. -/
def epsgToStr : EpsgCode → String
  | .ofStr s => s
  | .ofInt n => intRepr n

/-- `CRS.from_epsg`: reject non-integers and non-positive codes, otherwise
build `CRS(init="epsg:%s" % code, no_defs=True)` (note the original
argument, not the parsed integer, is interpolated). -/
def from_epsg (code : EpsgCode) : Except CRSError (List (String × PVal)) :=
  match epsgToInt code with
  | none => .error .invalidEPSG
  | some n =>
    if n ≤ 0 then .error .invalidEPSG
    else .ok [("init", .pstr ("epsg:" ++ epsgToStr code)), ("no_defs", .pbool true)]

/-- The guard `prjs.strip().upper().startswith('EPSG:')`. -/
def epsgGuardB (s : String) : Bool :=
  startsList ("EPSG:".toList) (upperChars (pyStripChars s.toList))

/-- The PROJ.4-string path of `from_string`:
`parts = [o.lstrip('+') for o in prjs.strip().split()]`, each part split on
`=` and typed by `parse` (`tokenItem`), keys filtered against
`all_proj_keys`, and the result collected into a dict. -/
def projPath (prjs : String) : List (String × PVal) :=
  dictOfPairs
    ((((splitWsChars (pyStripChars prjs.toList)).map
        (fun o => o.dropWhile (fun c => c = '+'))).map tokenItem).filter
      (fun kv => all_proj_keys.contains kv.1))

/-- `CRS.from_string`. -/
def from_string (prjs : String) : Except CRSError Decoded :=
  if prjs.toList.contains lbrace then
    match jsonLoads prjs with
    | none => .error .invalidJSON
    | some v => if jTruthyB v then .ok (.js v) else .error .emptyJSON
  else if epsgGuardB prjs then
    match from_epsg (.ofStr (String.mk ((splitOnChars ':' prjs.toList).getD 1 []))) with
    | .error e => .error e
    | .ok m => .ok (.crs m)
  else if (projPath prjs).isEmpty then .error (.emptyOrInvalid prjs)
  else .ok (.crs (projPath prjs))

/-- The filter of `to_string`:
`x[0] in all_proj_keys and x[1] is not False and isinstance(x[1], (bool, int, float)) or isinstance(x[1], string_types)`. -/
def keepItem (kv : String × PVal) : Bool :=
  all_proj_keys.contains kv.1 && !isFalseB kv.2 && isScalar kv.2

/-- The inner filter of `to_string`'s rendering,
`(y or y == 0) and y is not True`, at a mapping value. -/
def valKept (v : PVal) : Bool := (pyTruthy v || pyEqZero v) && !isTrueB v

/-- One rendered item of `to_string`:
`"+" + "=".join(map(str, filter(lambda y: (y or y == 0) and y is not True, (k, v))))`.
At the key (a `str`) the filter's test reduces to nonemptiness: strings
never equal `0` and are never the `True` singleton. -/
def renderChars (kv : String × PVal) : List Char :=
  '+' :: interChars ['=']
    ((if kv.1.toList.isEmpty then [] else [kv.1.toList]) ++
     (if valKept kv.2 then [(pyStr kv.2).toList] else []))

/-- Decidable equality of `Except` results. -/
instance {ε α : Type _} [DecidableEq ε] [DecidableEq α] : DecidableEq (Except ε α) := fun a b =>
  match a, b with
  | .error x, .error y =>
    if h : x = y then isTrue (by rw [h]) else isFalse (fun hh => h (Except.error.inj hh))
  | .ok x, .ok y =>
    if h : x = y then isTrue (by rw [h]) else isFalse (fun hh => h (Except.ok.inj hh))
  | .error _, .ok _ => isFalse (fun hh => Except.noConfusion hh)
  | .ok _, .error _ => isFalse (fun hh => Except.noConfusion hh)

/-- Code-point lexicographic comparison of strings as character lists
(Python `str` comparison). -/
def lexLeChars : List Char → List Char → Bool
  | [], _ => true
  | _ :: _, [] => false
  | a :: as, b :: bs => if a = b then lexLeChars as bs else decide (a < b)

/-- The order of `sorted` in `to_string`.  Python sorts the `(k, v)` tuples,
comparing values only when keys tie; the items of a dict have unique keys,
so the key comparison is the whole order. -/
def pairLe (x y : String × PVal) : Bool := lexLeChars x.1.toList y.1.toList

/-- Insert into a sorted list, before the first element it is `le` to
(stable: an element inserted from the left of equals stays left). -/
def insLe {α : Type} (le : α → α → Bool) (x : α) : List α → List α
  | [] => [x]
  | y :: ys => if le x y then x :: y :: ys else y :: insLe le x ys

/-- Python `sorted` (a stable comparison sort; insertion sort here). -/
def sortBy {α : Type} (le : α → α → Bool) (l : List α) : List α :=
  l.foldr (insLe le) []

/-- `CRS.to_string`. -/
def to_string (M : List (String × PVal)) : String :=
  String.mk (interChars [' '] ((sortBy pairLe (M.filter keepItem)).map renderChars))

/-- Modelled from the spec's words in section 4.4 (for comparison with the
source's `to_string`): render a surviving pair as a bare `"+key"` when the
value is boolean true — amended: or the empty text — and as
`"+key=value"` otherwise. -/
def specRender (kv : String × PVal) : String :=
  if isTrueB kv.2 || kv.2 = PVal.pstr "" then "+" ++ kv.1
  else "+" ++ kv.1 ++ "=" ++ pyStr kv.2

/-- Modelled from the spec's words in section 4.4: keep entries whose key is
in the vocabulary, whose value is not boolean false, and whose value is
scalar. -/
def specKeep (kv : String × PVal) : Bool :=
  all_proj_keys.contains kv.1 && !isFalseB kv.2 && isScalar kv.2

/-- Python `sep.join` over strings (spec-side formulation). -/
def joinSepStr (sep : String) : List String → String
  | [] => ""
  | [x] => x
  | x :: y :: rest => x ++ sep ++ joinSepStr sep (y :: rest)

/-- Modelled from the spec's words in section 4.1 (for comparison with the
source's `all_proj_keys`): extract the name from every NON-BLANK line of the
table (the source instead skips lines of length at most one), deduplicate,
append `"no_mayo"`. -/
def specVocab : List String :=
  (((_param_data_lines.filter (fun x => !(pyStripChars x.toList).isEmpty)).map
    (fun line => String.mk (pyStripChars ((firstTok line).toList.dropWhile (fun c => c = '+'))))).eraseDups)
  ++ ["no_mayo"]

/-- First-seen order of a key list: the formalization of "preserving
first-seen order of surviving tokens" (spec section 4.2). -/
def firstSeenAux : List String → List String → List String
  | [], _ => []
  | k :: r, seen =>
    if seen.contains k then firstSeenAux r seen else k :: firstSeenAux r (k :: seen)

/-- Keys of a pair list in first-seen order, duplicates dropped. -/
def firstSeenKeys (l : List String) : List String := firstSeenAux l []

/-- Equality of two mappings as sets of key/value pairs (the comparison the
round-trip claim asks for: key order may differ). -/
def sameContents (a b : List (String × PVal)) : Bool :=
  a.all (fun p => b.contains p) && b.all (fun p => a.contains p)

/-- A text value that survives the decode pipeline unchanged: nonempty (the
empty text renders bare and decodes as boolean true), free of whitespace,
`=` and `{` (which would change tokenization), and fixed by the
scalar-typing rule (not a boolean literal, not numeric). -/
def goodStr (s : String) : Bool :=
  !s.toList.isEmpty && s.toList.all (fun c => !pyWs c && c ≠ '=' && c ≠ lbrace) &&
    parse s == PVal.pstr s

/-- A mapping value on which encode-then-decode can be the identity:
boolean true, any integer, a float value in lowest terms whose denominator
divides a power of ten (every Python float is), or a stable text value. -/
def goodVal : PVal → Bool
  | .pbool b => b
  | .pint _ => true
  | .pfloat f => pfCanon f && (pow10Exp f.den).isSome
  | .pstr s => goodStr s
  | _ => false

end Rasterio

namespace Rasterio

/-! ### Basic facts: characters, digits, numerals -/

theorem digit_char_facts {d : Nat} (h : d < 10) :
    (digitChar d).isDigit = true ∧ charDigit (digitChar d) = d ∧ pyWs (digitChar d) = false ∧
      digitChar d ≠ '-' ∧ digitChar d ≠ '.' ∧ digitChar d ≠ '+' ∧ digitChar d ≠ '=' ∧
      digitChar d ≠ lbrace := by
  interval_cases d <;> decide

theorem isDigit_bounds {c : Char} (h : c.isDigit = true) : 48 ≤ c.toNat ∧ c.toNat ≤ 57 := by
  simp [Char.isDigit] at h; exact h

theorem digit_not_ws {c : Char} (h : c.isDigit = true) : pyWs c = false := by
  have hb := isDigit_bounds h
  simp only [pyWs, Bool.or_eq_false_iff, decide_eq_false_iff_not]
  refine ⟨⟨⟨⟨⟨?_, ?_⟩, ?_⟩, ?_⟩, ?_⟩, ?_⟩ <;> (intro he; subst he; simp at hb)

theorem digit_ne_special {c : Char} (h : c.isDigit = true) :
    c ≠ '-' ∧ c ≠ '.' ∧ c ≠ '+' ∧ c ≠ '=' ∧ c ≠ lbrace ∧ c ≠ ':' := by
  have hb := isDigit_bounds h
  refine ⟨?_, ?_, ?_, ?_, ?_, ?_⟩ <;> (intro he; subst he; simp [lbrace, Char.ofNat] at hb)

theorem foldl_digits_linear (l : List Char) (acc : Nat) :
    l.foldl (fun a c => a * 10 + charDigit c) acc = acc * 10 ^ l.length + digitsNatR l := by
  induction l generalizing acc with
  | nil => simp [digitsNatR]
  | cons c r ih =>
    simp only [List.foldl_cons, digitsNatR]
    rw [ih (acc * 10 + charDigit c), ih (0 * 10 + charDigit c)]
    ring_nf
    simp [List.length_cons, pow_succ]
    ring

theorem digitsValAux_all_digits {l : List Char} (h : ∀ c ∈ l, c.isDigit = true) (acc : Nat) :
    digitsValAux acc l = some (l.foldl (fun a c => a * 10 + charDigit c) acc) := by
  induction l generalizing acc with
  | nil => simp [digitsValAux]
  | cons c r ih =>
    have hc := h c (by simp)
    simp only [digitsValAux, hc, if_pos, List.foldl_cons]
    exact ih (fun x hx => h x (by simp [hx])) _

theorem digitsValAux_none {l : List Char} (h : ∃ c ∈ l, c.isDigit = false) (acc : Nat) :
    digitsValAux acc l = none := by
  induction l generalizing acc with
  | nil => simp at h
  | cons c r ih =>
    obtain ⟨x, hx, hxd⟩ := h
    simp only [digitsValAux]
    rcases List.mem_cons.mp hx with rfl | hxr
    · simp [hxd]
    · by_cases hc : c.isDigit = true
      · simp only [hc, if_pos]; exact ih ⟨x, hxr, hxd⟩ _
      · rw [if_neg hc]

theorem digitsVal_all_digits {l : List Char} (hne : l ≠ [])
    (h : ∀ c ∈ l, c.isDigit = true) : digitsVal l = some (digitsNatR l) := by
  have : l.isEmpty = false := by simp [List.isEmpty_iff, hne]
  simp only [digitsVal, this, Bool.false_eq_true, if_neg, Bool.not_eq_true]
  rw [digitsValAux_all_digits h 0]
  rw [foldl_digits_linear]
  simp

theorem natReprAux_spec : ∀ fuel n, n < fuel →
    natReprAux fuel n ≠ [] ∧ (∀ c ∈ natReprAux fuel n, c.isDigit = true) ∧
      digitsNatR (natReprAux fuel n) = n := by
  intro fuel
  induction fuel with
  | zero => intro n h; omega
  | succ f ih =>
    intro n h
    by_cases h10 : n < 10
    · simp only [natReprAux, h10, if_pos]
      have hd := digit_char_facts h10
      refine ⟨by simp, by simpa using hd.1, ?_⟩
      simp [digitsNatR, hd.2.1]
    · have hn0 : 0 < n := by omega
      have hdiv : n / 10 < f := by
        have h2 : n / 10 < n := Nat.div_lt_self hn0 (by norm_num)
        omega
      obtain ⟨ih1, ih2, ih3⟩ := ih (n / 10) hdiv
      simp only [natReprAux, h10, if_neg, Bool.not_eq_true]
      have hm : n % 10 < 10 := Nat.mod_lt _ (by omega)
      have hd := digit_char_facts hm
      refine ⟨by simp, ?_, ?_⟩
      · intro c hc
        rcases List.mem_append.mp hc with hc1 | hc2
        · exact ih2 c hc1
        · simp at hc2; subst hc2; exact hd.1
      · show List.foldl (fun a c => a * 10 + charDigit c) 0
            (natReprAux f (n / 10) ++ [digitChar (n % 10)]) = n
        rw [List.foldl_append]
        simp only [List.foldl_cons, List.foldl_nil]
        have e1 : List.foldl (fun a c => a * 10 + charDigit c) 0 (natReprAux f (n / 10)) =
            digitsNatR (natReprAux f (n / 10)) := rfl
        rw [e1, ih3, hd.2.1]
        omega

theorem natRepr_spec (n : Nat) :
    natRepr n ≠ [] ∧ (∀ c ∈ natRepr n, c.isDigit = true) ∧ digitsNatR (natRepr n) = n :=
  natReprAux_spec (n + 1) n (by omega)

end Rasterio

namespace Rasterio

/-! ### Strip, span and append lemmas -/

theorem dropWhile_eq_self_of_head {p : Char → Bool} {l : List Char}
    (h : ∀ c, l.head? = some c → p c = false) : l.dropWhile p = l := by
  cases l with
  | nil => rfl
  | cons c r => rw [List.dropWhile_cons, if_neg (by simp [h c rfl])]

theorem pyStrip_noop {l : List Char}
    (h1 : ∀ c, l.head? = some c → pyWs c = false)
    (h2 : ∀ c, l.getLast? = some c → pyWs c = false) : pyStripChars l = l := by
  unfold pyStripChars
  rw [dropWhile_eq_self_of_head h1]
  rw [dropWhile_eq_self_of_head (by
    intro c hc
    rw [List.head?_reverse] at hc
    exact h2 c hc)]
  exact List.reverse_reverse l

theorem takeWhile_append_all {p : Char → Bool} {a b : List Char}
    (h : ∀ c ∈ a, p c = true) : (a ++ b).takeWhile p = a ++ b.takeWhile p := by
  induction a with
  | nil => simp
  | cons c r ih =>
    simp only [List.cons_append, List.takeWhile_cons, h c (by simp), if_pos]
    rw [ih (fun x hx => h x (by simp [hx]))]

theorem dropWhile_append_all {p : Char → Bool} {a b : List Char}
    (h : ∀ c ∈ a, p c = true) : (a ++ b).dropWhile p = b.dropWhile p := by
  induction a with
  | nil => simp
  | cons c r ih =>
    simp only [List.cons_append, List.dropWhile_cons, h c (by simp), if_pos]
    exact ih (fun x hx => h x (by simp [hx]))

theorem spanDigits_exact {a b : List Char} (ha : ∀ c ∈ a, c.isDigit = true)
    (hb : ∀ c, b.head? = some c → c.isDigit = false) :
    spanDigits (a ++ b) = (a, b) := by
  unfold spanDigits
  have ht : (a ++ b).takeWhile Char.isDigit = a := by
    rw [takeWhile_append_all ha]
    cases b with
    | nil => simp
    | cons c r =>
      rw [List.takeWhile_cons, if_neg (by simp [hb c rfl])]
      simp
  have hd : (a ++ b).dropWhile Char.isDigit = b := by
    rw [dropWhile_append_all ha]
    exact dropWhile_eq_self_of_head hb
  rw [ht, hd]

/-! ### Integer print/parse roundtrip -/

theorem getLast?_mem {l : List Char} {c : Char} (h : l.getLast? = some c) : c ∈ l := by
  rw [← List.head?_reverse] at h
  have := List.mem_of_mem_head? h
  exact (List.mem_reverse).mp this

theorem intRepr_chars (n : Int) :
    ∀ c ∈ (intRepr n).toList, c.isDigit = true ∨ c = '-' := by
  obtain ⟨h1, h2, h3⟩ := natRepr_spec n.natAbs
  intro c hc
  unfold intRepr at hc
  by_cases hn : n < 0
  · rw [if_pos hn] at hc
    rcases List.mem_cons.mp hc with rfl | hr
    · right; rfl
    · left; exact h2 c hr
  · rw [if_neg hn] at hc
    left; exact h2 c hc

theorem pyIntParse_cons {s : String} {c : Char} {r : List Char}
    (h : pyStripChars s.toList = c :: r) :
    pyIntParse s =
      if c = '+' then (digitsVal r).map (fun n => Int.ofNat n)
      else if c = '-' then (digitsVal r).map (fun n => -Int.ofNat n)
      else (digitsVal (c :: r)).map (fun n => Int.ofNat n) := by
  unfold pyIntParse
  rw [h]

theorem strip_noop_of_digits_minus {cs : List Char}
    (hcs : ∀ c ∈ cs, c.isDigit = true ∨ c = '-') : pyStripChars cs = cs := by
  apply pyStrip_noop
  · intro c hc
    rcases hcs c (List.mem_of_mem_head? hc) with hd | rfl
    · exact digit_not_ws hd
    · decide
  · intro c hc
    rcases hcs c (getLast?_mem hc) with hd | rfl
    · exact digit_not_ws hd
    · decide

theorem pyIntParse_intRepr (n : Int) : pyIntParse (intRepr n) = some n := by
  obtain ⟨h1, h2, h3⟩ := natRepr_spec n.natAbs
  have hchars := intRepr_chars n
  by_cases hn : n < 0
  · have hl : (intRepr n).toList = '-' :: natRepr n.natAbs := by
      simp [intRepr, if_pos hn]
    have hs : pyStripChars (intRepr n).toList = '-' :: natRepr n.natAbs := by
      rw [hl] at hchars ⊢
      exact strip_noop_of_digits_minus hchars
    rw [pyIntParse_cons hs]
    rw [if_neg (by decide), if_pos rfl]
    rw [digitsVal_all_digits h1 h2, h3]
    simp only [Option.map_some']
    congr 1
    rw [Int.ofNat_eq_natCast]
    omega
  · have hl : (intRepr n).toList = natRepr n.natAbs := by
      simp [intRepr, if_neg hn]
    cases hnr : natRepr n.natAbs with
    | nil => exact absurd hnr h1
    | cons c r =>
      have hc : c.isDigit = true := h2 c (by rw [hnr]; simp)
      have hne := digit_ne_special hc
      have hs : pyStripChars (intRepr n).toList = c :: r := by
        rw [hl, hnr] at hchars ⊢
        exact strip_noop_of_digits_minus hchars
      rw [pyIntParse_cons hs]
      rw [if_neg (by simp [hne.2.2.1]), if_neg (by simp [hne.1])]
      rw [← hnr, digitsVal_all_digits h1 h2, h3]
      simp only [Option.map_some']
      congr 1
      rw [Int.ofNat_eq_natCast]
      omega

theorem string_ne_of_char {v w : String} {c : Char}
    (hc : c ∈ w.toList) (hcd : c.isDigit = false) (hcm : c ≠ '-')
    (hv : ∀ x ∈ v.toList, x.isDigit = true ∨ x = '-') : v ≠ w := by
  intro he
  subst he
  rcases hv c hc with hd | rfl
  · rw [hd] at hcd
    exact Bool.noConfusion hcd
  · exact hcm rfl

end Rasterio

namespace Rasterio

/-! ### Float print/parse roundtrip -/

theorem ne_of_badchar {v w : String} {c : Char} {P : Char → Prop}
    (hc : c ∈ w.toList) (hv : ∀ x ∈ v.toList, P x) (hcP : ¬ P c) : v ≠ w := by
  intro he
  subst he
  exact hcP (hv c hc)

theorem pow10Exp_dvd {d k : Nat} (h : pow10Exp d = some k) : d ∣ 10 ^ k := by
  have h2 := List.find?_some h
  simpa using h2

theorem pfNorm_mul {n : Int} {d t : Nat} (ht : t ≠ 0)
    (hcop : Nat.gcd n.natAbs d = 1) : pfNorm (n * Int.ofNat t) (d * t) = ⟨n, d⟩ := by
  have habs : (n * Int.ofNat t).natAbs = n.natAbs * t := by
    rw [Int.natAbs_mul]
    simp
  have hg : Nat.gcd (n * Int.ofNat t).natAbs (d * t) = t := by
    rw [habs, Nat.gcd_mul_right, hcop, one_mul]
  unfold pfNorm
  rw [hg, if_neg ht]
  have e1 : n * Int.ofNat t / Int.ofNat t = n :=
    Int.mul_ediv_cancel n (by simpa using ht)
  have e2 : d * t / t = d := Eq.symm (Nat.eq_div_of_mul_eq_left ht rfl)
  rw [e1, e2]

theorem foldl_zeros (p : Nat) :
    List.foldl (fun a c => a * 10 + charDigit c) 0 (List.replicate p '0') = 0 := by
  induction p with
  | zero => rfl
  | succ q ih => simpa [List.replicate_succ, charDigit] using ih

theorem digitsNatR_pad (p : Nat) (ds : List Char) :
    digitsNatR (List.replicate p '0' ++ ds) = digitsNatR ds := by
  unfold digitsNatR
  rw [List.foldl_append, foldl_zeros]

theorem digitsNatR_append (a b : List Char) :
    digitsNatR (a ++ b) = digitsNatR a * 10 ^ b.length + digitsNatR b := by
  unfold digitsNatR
  rw [List.foldl_append]
  exact foldl_digits_linear b _

theorem floatPad_facts (f : PyFloat) (k : Nat) :
    (∀ c ∈ floatPad f k, c.isDigit = true) ∧
      digitsNatR (floatPad f k) = (floatNum f k).natAbs ∧
      k + 1 ≤ (floatPad f k).length := by
  obtain ⟨h1, h2, h3⟩ := natRepr_spec (floatNum f k).natAbs
  refine ⟨?_, ?_, ?_⟩
  · intro c hc
    rcases List.mem_append.mp hc with hr | hn
    · rw [List.eq_of_mem_replicate hr]; decide
    · exact h2 c hn
  · unfold floatPad
    rw [digitsNatR_pad]
    exact h3
  · unfold floatPad
    rw [List.length_append, List.length_replicate]
    have : natRepr (floatNum f k).natAbs ≠ [] := h1
    have hlen : 1 ≤ (natRepr (floatNum f k).natAbs).length := by
      cases hnr : natRepr (floatNum f k).natAbs with
      | nil => exact absurd hnr h1
      | cons c r => simp
    omega

end Rasterio

namespace Rasterio

theorem strip_noop_of_no_ws {cs : List Char} (h : ∀ c ∈ cs, pyWs c = false) :
    pyStripChars cs = cs := by
  apply pyStrip_noop
  · intro c hc
    exact h c (List.mem_of_mem_head? hc)
  · intro c hc
    exact h c (getLast?_mem hc)

theorem pyFloatFrac_digits {sgn : Int} {I F : List Char}
    (hI : ∀ c ∈ I, c.isDigit = true) (hIne : I ≠ []) (hF : ∀ c ∈ F, c.isDigit = true) :
    pyFloatFrac sgn I ('.' :: F) = some (pfNorm (floatMant sgn I F) (10 ^ F.length)) := by
  unfold pyFloatFrac
  show (if ('.' : Char) = '.' then pyFloatFin sgn I (spanDigits F).1 (spanDigits F).2
    else pyFloatFin sgn I [] ('.' :: F)) = _
  rw [if_pos rfl]
  have hsp : spanDigits F = (F, []) := by
    have h0 : spanDigits (F ++ []) = (F, []) :=
      spanDigits_exact hF (fun c hc => Option.noConfusion hc)
    simpa using h0
  rw [hsp]
  unfold pyFloatFin
  rw [if_neg (by simp [List.isEmpty_iff, hIne])]

theorem sign_split_pos {I F : List Char} (hI : ∀ c ∈ I, c.isDigit = true) (hIne : I ≠ []) :
    pySignSplit (I ++ '.' :: F) = (1, I ++ '.' :: F) := by
  cases I with
  | nil => exact absurd rfl hIne
  | cons c I2 =>
    have hc : c.isDigit = true := hI c (by simp)
    have hne := digit_ne_special hc
    show (if c = '+' then ((1 : Int), I2 ++ '.' :: F)
      else if c = '-' then (-1, I2 ++ '.' :: F) else (1, c :: (I2 ++ '.' :: F))) = _
    rw [if_neg hne.2.2.1, if_neg hne.1]
    simp

theorem pyFloatParse_decimal_pos {I F : List Char}
    (hI : ∀ c ∈ I, c.isDigit = true) (hIne : I ≠ []) (hF : ∀ c ∈ F, c.isDigit = true) :
    pyFloatParse (String.mk (I ++ '.' :: F)) =
      some (pfNorm (floatMant 1 I F) (10 ^ F.length)) := by
  have hchars : ∀ c ∈ I ++ '.' :: F, pyWs c = false := by
    intro c hc
    rcases List.mem_append.mp hc with hi | h2
    · exact digit_not_ws (hI c hi)
    · rcases List.mem_cons.mp h2 with rfl | hf
      · decide
      · exact digit_not_ws (hF c hf)
  have hspan : spanDigits (I ++ '.' :: F) = (I, '.' :: F) :=
    spanDigits_exact hI (fun c hc => by simp at hc; subst hc; decide)
  unfold pyFloatParse
  rw [show (String.mk (I ++ '.' :: F)).toList = I ++ '.' :: F from rfl]
  rw [strip_noop_of_no_ws hchars, sign_split_pos hI hIne, hspan]
  exact pyFloatFrac_digits hI hIne hF

theorem pyFloatParse_decimal_neg {I F : List Char}
    (hI : ∀ c ∈ I, c.isDigit = true) (hIne : I ≠ []) (hF : ∀ c ∈ F, c.isDigit = true) :
    pyFloatParse (String.mk ('-' :: (I ++ '.' :: F))) =
      some (pfNorm (floatMant (-1) I F) (10 ^ F.length)) := by
  have hchars : ∀ c ∈ '-' :: (I ++ '.' :: F), pyWs c = false := by
    intro c hc
    rcases List.mem_cons.mp hc with rfl | h1
    · decide
    · rcases List.mem_append.mp h1 with hi | h2
      · exact digit_not_ws (hI c hi)
      · rcases List.mem_cons.mp h2 with rfl | hf
        · decide
        · exact digit_not_ws (hF c hf)
  have hspan : spanDigits (I ++ '.' :: F) = (I, '.' :: F) :=
    spanDigits_exact hI (fun c hc => by simp at hc; subst hc; decide)
  have hss : pySignSplit ('-' :: (I ++ '.' :: F)) = (-1, I ++ '.' :: F) := by
    show (if ('-' : Char) = '+' then ((1 : Int), I ++ '.' :: F)
      else if ('-' : Char) = '-' then (-1, I ++ '.' :: F)
      else (1, '-' :: (I ++ '.' :: F))) = _
    rw [if_neg (by decide), if_pos rfl]
  unfold pyFloatParse
  rw [show (String.mk ('-' :: (I ++ '.' :: F))).toList = '-' :: (I ++ '.' :: F) from rfl]
  rw [strip_noop_of_no_ws hchars, hss, hspan]
  exact pyFloatFrac_digits hI hIne hF

end Rasterio

namespace Rasterio

theorem pfNorm_int (n : Int) : pfNorm (n * 10) 10 = ⟨n, 1⟩ := by
  have h := @pfNorm_mul n 1 10 (by norm_num) (Nat.gcd_one_right _)
  simpa using h

theorem floatMant_sign_pos {sgn : Int} {I F : List Char} (a b : Nat)
    (hI : digitsNatR I = a) (hF : digitsNatR F = b) :
    floatMant sgn I F = sgn * (a * 10 ^ F.length + b) := by
  unfold floatMant
  rw [hI, hF]
  simp only [Int.ofNat_eq_natCast]

theorem floatRepr_int_parse (n : Int) :
    pyFloatParse (intRepr n ++ ".0") = some ⟨n, 1⟩ := by
  obtain ⟨h1, h2, h3⟩ := natRepr_spec n.natAbs
  have h0digits : ∀ c ∈ (['0'] : List Char), c.isDigit = true := by decide
  by_cases hn : n < 0
  · have hshape : (intRepr n ++ ".0") = String.mk ('-' :: (natRepr n.natAbs ++ '.' :: ['0'])) := by
      show String.mk _ ++ String.mk _ = _
      unfold natRepr
      rw [if_pos hn]
      rfl
    rw [hshape, pyFloatParse_decimal_neg h2 h1 h0digits]
    rw [floatMant_sign_pos n.natAbs 0 h3 (by decide)]
    have hm : (-1 : Int) * (((n.natAbs : Int)) * 10 ^ (['0'] : List Char).length + ((0 : Nat) : Int)) =
        n * 10 := by
      have habs : ((n.natAbs : Int)) = -n := by omega
      rw [habs]
      norm_num
    rw [hm]
    show some (pfNorm (n * 10) 10) = some ⟨n, 1⟩
    rw [pfNorm_int]
  · have hshape : (intRepr n ++ ".0") = String.mk (natRepr n.natAbs ++ '.' :: ['0']) := by
      show String.mk _ ++ String.mk _ = _
      unfold natRepr
      rw [if_neg hn]
      rfl
    rw [hshape, pyFloatParse_decimal_pos h2 h1 h0digits]
    rw [floatMant_sign_pos n.natAbs 0 h3 (by decide)]
    have hm : ((1 : Int)) * (((n.natAbs : Int)) * 10 ^ (['0'] : List Char).length + ((0 : Nat) : Int)) =
        n * 10 := by
      have habs : ((n.natAbs : Int)) = n := by omega
      rw [habs]
      norm_num
    rw [hm]
    show some (pfNorm (n * 10) 10) = some ⟨n, 1⟩
    rw [pfNorm_int]

end Rasterio

namespace Rasterio

theorem floatReprDec_parse {f : PyFloat} {k : Nat}
    (hden : f.den ≠ 0) (hden1 : f.den ≠ 1) (hcop : Nat.gcd f.num.natAbs f.den = 1)
    (hdvd : f.den ∣ 10 ^ k) :
    pyFloatParse (floatReprDec f k) = some f := by
  obtain ⟨hPdig, hPval, hPlen⟩ := floatPad_facts f k
  have hmul : f.den * (10 ^ k / f.den) = 10 ^ k := Nat.mul_div_cancel' hdvd
  have ht0 : 10 ^ k / f.den ≠ 0 := by
    intro h0
    rw [h0, Nat.mul_zero] at hmul
    exact absurd hmul.symm (by positivity)
  have hIdig : ∀ c ∈ (floatPad f k).take ((floatPad f k).length - k), c.isDigit = true :=
    fun c hc => hPdig c (List.mem_of_mem_take hc)
  have hFdig : ∀ c ∈ (floatPad f k).drop ((floatPad f k).length - k), c.isDigit = true :=
    fun c hc => hPdig c (List.mem_of_mem_drop hc)
  have hIlen : ((floatPad f k).take ((floatPad f k).length - k)).length =
      (floatPad f k).length - k := by
    rw [List.length_take]
    omega
  have hIne : (floatPad f k).take ((floatPad f k).length - k) ≠ [] := by
    intro h0
    have := congrArg List.length h0
    rw [hIlen] at this
    simp at this
    omega
  have hFlen : ((floatPad f k).drop ((floatPad f k).length - k)).length = k := by
    rw [List.length_drop]
    omega
  have hIF : (floatPad f k).take ((floatPad f k).length - k) ++
      (floatPad f k).drop ((floatPad f k).length - k) = floatPad f k :=
    List.take_append_drop _ _
  have hval : digitsNatR ((floatPad f k).take ((floatPad f k).length - k)) * 10 ^ k +
      digitsNatR ((floatPad f k).drop ((floatPad f k).length - k)) = (floatNum f k).natAbs := by
    have := digitsNatR_append ((floatPad f k).take ((floatPad f k).length - k))
      ((floatPad f k).drop ((floatPad f k).length - k))
    rw [hIF, hFlen] at this
    rw [← this, hPval]
  have hposT : (0 : Int) < Int.ofNat (10 ^ k / f.den) := by
    simp only [Int.ofNat_eq_natCast]
    exact_mod_cast Nat.pos_of_ne_zero ht0
  have hsign1 : floatNum f k < 0 ↔ f.num < 0 := by
    unfold floatNum
    constructor
    · intro h
      by_contra hcon
      push_neg at hcon
      exact absurd (mul_nonneg hcon (le_of_lt hposT)) (not_le.mpr h)
    · intro h
      exact mul_neg_of_neg_of_pos h hposT
  have hmant : ∀ sgn : Int, (f.num < 0 → sgn = -1) → (¬ f.num < 0 → sgn = 1) →
      floatMant sgn ((floatPad f k).take ((floatPad f k).length - k))
        ((floatPad f k).drop ((floatPad f k).length - k)) = floatNum f k := by
    intro sgn hneg hpos
    rw [floatMant_sign_pos (digitsNatR _) (digitsNatR _) rfl rfl, hFlen]
    have hcast : ((digitsNatR ((floatPad f k).take ((floatPad f k).length - k)) : Int) * 10 ^ k +
        (digitsNatR ((floatPad f k).drop ((floatPad f k).length - k)) : Int)) =
        ((floatNum f k).natAbs : Int) := by
      push_cast [← hval]
      ring
    rw [hcast]
    by_cases hn : f.num < 0
    · rw [hneg hn]
      have : floatNum f k < 0 := hsign1.mpr hn
      omega
    · rw [hpos hn]
      have : ¬ floatNum f k < 0 := fun hcon => hn (hsign1.mp hcon)
      omega
  have hfinal : pfNorm (floatNum f k) (10 ^ k) = f := by
    have h2 := @pfNorm_mul f.num f.den (10 ^ k / f.den) ht0 hcop
    rw [hmul] at h2
    rw [show floatNum f k = f.num * Int.ofNat (10 ^ k / f.den) from rfl, h2]
  unfold floatReprDec
  by_cases hn : f.num < 0
  · rw [if_pos hn]
    rw [show ((['-'] : List Char) ++ (floatPad f k).take ((floatPad f k).length - k) ++
      '.' :: (floatPad f k).drop ((floatPad f k).length - k)) =
      '-' :: ((floatPad f k).take ((floatPad f k).length - k) ++
        '.' :: (floatPad f k).drop ((floatPad f k).length - k)) by simp]
    rw [pyFloatParse_decimal_neg hIdig hIne hFdig]
    rw [hmant (-1) (fun _ => rfl) (fun hcon => absurd hn hcon), hFlen, hfinal]
  · rw [if_neg hn]
    rw [show (([] : List Char) ++ (floatPad f k).take ((floatPad f k).length - k) ++
      '.' :: (floatPad f k).drop ((floatPad f k).length - k)) =
      (floatPad f k).take ((floatPad f k).length - k) ++
        '.' :: (floatPad f k).drop ((floatPad f k).length - k) by simp]
    rw [pyFloatParse_decimal_pos hIdig hIne hFdig]
    rw [hmant 1 (fun hcon => absurd hcon hn) (fun _ => rfl), hFlen, hfinal]

end Rasterio

namespace Rasterio

theorem pfCanon_parts {f : PyFloat} (hc : pfCanon f = true) :
    f.den ≠ 0 ∧ Nat.gcd f.num.natAbs f.den = 1 := by
  unfold pfCanon at hc
  simp only [Bool.and_eq_true, decide_eq_true_eq] at hc
  exact hc

theorem floatRepr_parse {f : PyFloat} (hc : pfCanon f = true)
    (hk : (pow10Exp f.den).isSome = true) : pyFloatParse (floatRepr f) = some f := by
  obtain ⟨hden, hcop⟩ := pfCanon_parts hc
  by_cases h1 : f.den = 1
  · unfold floatRepr
    rw [if_pos h1, floatRepr_int_parse f.num]
    rw [show (⟨f.num, 1⟩ : PyFloat) = ⟨f.num, f.den⟩ from by rw [h1]]
  · unfold floatRepr
    rw [if_neg h1]
    obtain ⟨k, hk2⟩ := Option.isSome_iff_exists.mp hk
    rw [hk2]
    exact floatReprDec_parse hden h1 hcop (pow10Exp_dvd hk2)

theorem floatRepr_chars {f : PyFloat} (hk : (pow10Exp f.den).isSome = true) :
    (∀ c ∈ (floatRepr f).toList, c.isDigit = true ∨ c = '-' ∨ c = '.') ∧
      '.' ∈ (floatRepr f).toList := by
  by_cases h1 : f.den = 1
  · have hshape : (floatRepr f).toList = (intRepr f.num).toList ++ ['.', '0'] := by
      unfold floatRepr
      rw [if_pos h1]
      rfl
    rw [hshape]
    constructor
    · intro c hc2
      rcases List.mem_append.mp hc2 with hi | hd
      · rcases intRepr_chars f.num c hi with h | h
        · exact Or.inl h
        · exact Or.inr (Or.inl h)
      · simp at hd
        rcases hd with rfl | rfl
        · exact Or.inr (Or.inr rfl)
        · exact Or.inl (by decide)
    · simp
  · obtain ⟨k, hk2⟩ := Option.isSome_iff_exists.mp hk
    obtain ⟨hPdig, _, _⟩ := floatPad_facts f k
    have hshape : (floatRepr f).toList = (if f.num < 0 then ['-'] else []) ++
        (floatPad f k).take ((floatPad f k).length - k) ++
        '.' :: (floatPad f k).drop ((floatPad f k).length - k) := by
      unfold floatRepr
      rw [if_neg h1, hk2]
      rfl
    rw [hshape]
    constructor
    · intro c hc2
      rcases List.mem_append.mp hc2 with h2 | h3
      · rcases List.mem_append.mp h2 with hs | hi
        · by_cases hn : f.num < 0
          · rw [if_pos hn] at hs
            simp at hs
            subst hs
            exact Or.inr (Or.inl rfl)
          · rw [if_neg hn] at hs
            simp at hs
        · exact Or.inl (hPdig c (List.mem_of_mem_take hi))
      · rcases List.mem_cons.mp h3 with rfl | hf
        · exact Or.inr (Or.inr rfl)
        · exact Or.inl (hPdig c (List.mem_of_mem_drop hf))
    · simp

theorem digitsVal_dot {l : List Char} (h : '.' ∈ l) : digitsVal l = none := by
  unfold digitsVal
  rw [if_neg (by simp [List.isEmpty_iff]; intro h0; rw [h0] at h; simp at h)]
  exact digitsValAux_none ⟨'.', h, by decide⟩ 0

theorem pyIntParse_dot {s : String} (hstrip : pyStripChars s.toList = s.toList)
    (hdot : '.' ∈ s.toList) : pyIntParse s = none := by
  cases hl : s.toList with
  | nil => rw [hl] at hdot; simp at hdot
  | cons c r =>
    rw [hl] at hdot
    rw [pyIntParse_cons (hstrip.trans hl)]
    by_cases h1 : c = '+'
    · rw [if_pos h1]
      have : '.' ∈ r := by
        rcases List.mem_cons.mp hdot with he | hr
        · rw [h1] at he; exact absurd he (by decide)
        · exact hr
      rw [digitsVal_dot this]
      rfl
    · rw [if_neg h1]
      by_cases h2 : c = '-'
      · rw [if_pos h2]
        have : '.' ∈ r := by
          rcases List.mem_cons.mp hdot with he | hr
          · rw [h2] at he; exact absurd he (by decide)
          · exact hr
        rw [digitsVal_dot this]
        rfl
      · rw [if_neg h2, digitsVal_dot hdot]
        rfl

end Rasterio

namespace Rasterio

theorem parse_not_literal {v : String}
    (h1 : v ≠ "True") (h2 : v ≠ "true") (h3 : v ≠ "False") (h4 : v ≠ "false") :
    parse v = (match pyIntParse v with
      | some n => PVal.pint n
      | none =>
        match pyFloatParse v with
        | some f => PVal.pfloat f
        | none => PVal.pstr v) := by
  unfold parse
  rw [if_neg (by simp [h1, h2]), if_neg (by simp [h3, h4])]

theorem parse_intRepr (n : Int) : parse (intRepr n) = PVal.pint n := by
  have hv := intRepr_chars n
  have hlit : ∀ w : String, ∀ c : Char, c ∈ w.toList → c.isDigit = false → c ≠ '-' →
      intRepr n ≠ w := by
    intro w c hc hcd hcm
    refine ne_of_badchar hc hv ?_
    intro hP
    rcases hP with h | h
    · rw [h] at hcd; exact Bool.noConfusion hcd
    · exact hcm h
  rw [parse_not_literal (hlit _ 'T' (by decide) (by decide) (by decide))
    (hlit _ 't' (by decide) (by decide) (by decide))
    (hlit _ 'F' (by decide) (by decide) (by decide))
    (hlit _ 'f' (by decide) (by decide) (by decide))]
  rw [pyIntParse_intRepr n]

theorem floatRepr_strip {f : PyFloat} (hk : (pow10Exp f.den).isSome = true) :
    pyStripChars (floatRepr f).toList = (floatRepr f).toList := by
  apply strip_noop_of_no_ws
  intro c hc
  rcases (floatRepr_chars hk).1 c hc with h | h | h
  · exact digit_not_ws h
  · rw [h]; decide
  · rw [h]; decide

theorem parse_floatRepr {f : PyFloat} (hc : pfCanon f = true)
    (hk : (pow10Exp f.den).isSome = true) : parse (floatRepr f) = PVal.pfloat f := by
  have hchars := (floatRepr_chars hk).1
  have hlit : ∀ w : String, ∀ c : Char, c ∈ w.toList →
      c.isDigit = false → c ≠ '-' → c ≠ '.' → floatRepr f ≠ w := by
    intro w c hcw hcd hcm hcdot
    refine ne_of_badchar hcw hchars ?_
    intro hP
    rcases hP with h | h | h
    · rw [h] at hcd; exact Bool.noConfusion hcd
    · exact hcm h
    · exact hcdot h
  rw [parse_not_literal (hlit _ 'T' (by decide) (by decide) (by decide) (by decide))
    (hlit _ 't' (by decide) (by decide) (by decide) (by decide))
    (hlit _ 'F' (by decide) (by decide) (by decide) (by decide))
    (hlit _ 'f' (by decide) (by decide) (by decide) (by decide))]
  rw [pyIntParse_dot (floatRepr_strip hk) (floatRepr_chars hk).2]
  rw [floatRepr_parse hc hk]

theorem parse_pstr {v : String} (hv : goodStr v = true) : parse v = PVal.pstr v := by
  unfold goodStr at hv
  simp only [Bool.and_eq_true, beq_iff_eq] at hv
  exact hv.2

end Rasterio

namespace Rasterio

/-! ### Lemmas about `splitOnChars` and `tokenItem` -/

theorem splitOn_ne_nil (c : Char) (l : List Char) : splitOnChars c l ≠ [] := by
  cases l with
  | nil => simp [splitOnChars]
  | cons x r =>
    unfold splitOnChars
    by_cases h : x = c
    · simp [h]
    · rw [if_neg h]
      cases splitOnChars c r <;> simp

theorem splitOn_no_sep {c : Char} {l : List Char} (h : ∀ x ∈ l, x ≠ c) :
    splitOnChars c l = [l] := by
  induction l with
  | nil => rfl
  | cons x r ih =>
    unfold splitOnChars
    rw [if_neg (h x (by simp))]
    rw [ih (fun y hy => h y (by simp [hy]))]

theorem splitOn_first {c : Char} {a b : List Char} (ha : ∀ x ∈ a, x ≠ c) :
    splitOnChars c (a ++ c :: b) = a :: splitOnChars c b := by
  induction a with
  | nil => simp [splitOnChars]
  | cons x r ih =>
    rw [List.cons_append]
    conv_lhs => unfold splitOnChars
    rw [if_neg (ha x (by simp))]
    rw [ih (fun y hy => ha y (by simp [hy]))]

theorem splitOn_pair {c : Char} {a b : List Char} (ha : ∀ x ∈ a, x ≠ c)
    (hb : ∀ x ∈ b, x ≠ c) : splitOnChars c (a ++ c :: b) = [a, b] := by
  rw [splitOn_first ha, splitOn_no_sep hb]

theorem splitOn_length (c : Char) (l : List Char) :
    (splitOnChars c l).length = l.count c + 1 := by
  induction l with
  | nil => simp [splitOnChars]
  | cons x r ih =>
    unfold splitOnChars
    by_cases h : x = c
    · subst h
      simp [List.count_cons, ih]
    · rw [if_neg h]
      have hne := splitOn_ne_nil c r
      cases hs : splitOnChars c r with
      | nil => exact absurd hs hne
      | cons t ts =>
        rw [hs] at ih
        simp only [List.length_cons] at ih ⊢
        rw [List.count_cons]
        simp [h]
        omega

theorem splitOn_headD (c : Char) (l : List Char) :
    (splitOnChars c l).headD [] = l.takeWhile (fun x => x ≠ c) := by
  induction l with
  | nil => rfl
  | cons x r ih =>
    unfold splitOnChars
    by_cases h : x = c
    · subst h
      simp [List.takeWhile_cons]
    · rw [if_neg h]
      have hne := splitOn_ne_nil c r
      cases hs : splitOnChars c r with
      | nil => exact absurd hs hne
      | cons t ts =>
        rw [hs] at ih
        simp only [List.headD_cons] at ih
        simp [List.takeWhile_cons, h, ih]

theorem splitOn_count_one {c : Char} {l : List Char} (h : l.count c = 1) :
    splitOnChars c l = [l.takeWhile (fun x => x ≠ c), (l.dropWhile (fun x => x ≠ c)).tail] := by
  induction l with
  | nil => simp at h
  | cons x r ih =>
    by_cases hx : x = c
    · subst hx
      have hr : x ∉ r := by
        rw [List.count_cons] at h
        simp at h
        exact List.count_eq_zero.mp h
      unfold splitOnChars
      rw [if_pos rfl, splitOn_no_sep (fun y hy he => hr (by rw [← he]; exact hy))]
      simp [List.takeWhile_cons, List.dropWhile_cons]
    · have hr : r.count c = 1 := by
        rw [List.count_cons] at h
        simp [hx] at h
        exact h
      unfold splitOnChars
      rw [if_neg hx]
      rw [ih hr]
      simp [List.takeWhile_cons, List.dropWhile_cons, hx]

theorem tokenItem_bare {k : String} (h : ∀ x ∈ k.toList, x ≠ '=') :
    tokenItem k.toList = (k, PVal.pbool true) := by
  unfold tokenItem
  rw [splitOn_no_sep h]
  rfl

theorem tokenItem_pair {k v : String} (hk : ∀ x ∈ k.toList, x ≠ '=')
    (hv : ∀ x ∈ v.toList, x ≠ '=') :
    tokenItem (k.toList ++ '=' :: v.toList) = (k, parse v) := by
  unfold tokenItem
  rw [splitOn_pair hk hv]
  rfl

end Rasterio

namespace Rasterio

/-! ### Joining tokens with spaces and splitting back -/

theorem splitWsAux_token {t : List Char} (ht : ∀ c ∈ t, pyWs c = false) :
    ∀ r cur, splitWsAux (t ++ r) cur = splitWsAux r (t.reverse ++ cur) := by
  induction t with
  | nil => intro r cur; simp
  | cons x t2 ih =>
    intro r cur
    rw [List.cons_append]
    conv_lhs => unfold splitWsAux
    rw [if_neg (by simp [ht x (by simp)])]
    rw [ih (fun c hc => ht c (by simp [hc])) r (x :: cur)]
    congr 1
    simp

theorem interChars_ne_nil {sep : List Char} {t : List Char} {ts : List (List Char)}
    (ht : t ≠ []) : interChars sep (t :: ts) ≠ [] := by
  cases ts with
  | nil => simpa [interChars] using ht
  | cons u ts2 =>
    show t ++ sep ++ interChars sep (u :: ts2) ≠ []
    simp [ht]

theorem splitWs_join (toks : List (List Char))
    (h : ∀ t ∈ toks, t ≠ [] ∧ ∀ c ∈ t, pyWs c = false) :
    splitWsChars (interChars [' '] toks) = toks := by
  induction toks with
  | nil => rfl
  | cons t ts ih =>
    obtain ⟨htne, htws⟩ := h t (by simp)
    cases ts with
    | nil =>
      show splitWsAux (interChars [' '] [t]) [] = [t]
      rw [show interChars [' '] [t] = t from rfl]
      rw [show (t : List Char) = t ++ [] from by simp, splitWsAux_token htws [] []]
      unfold splitWsAux
      rw [if_neg (by simp [List.isEmpty_iff, htne])]
      simp
    | cons u ts2 =>
      obtain ⟨hune, _⟩ := h u (by simp)
      show splitWsAux (interChars [' '] (t :: u :: ts2)) [] = t :: u :: ts2
      rw [show interChars [' '] (t :: u :: ts2) =
        t ++ (' ' :: interChars [' '] (u :: ts2)) from by
          show t ++ [' '] ++ interChars [' '] (u :: ts2) = _
          simp]
      rw [splitWsAux_token htws _ []]
      unfold splitWsAux
      rw [if_pos (by decide)]
      rw [if_neg (by simp [List.isEmpty_iff, htne])]
      rw [List.append_nil, List.reverse_reverse]
      congr 1
      exact ih (fun x hx => h x (by simp [hx]))

theorem interChars_mem {sep : List Char} {toks : List (List Char)} {c : Char}
    (hc : c ∈ interChars sep toks) : (∃ t ∈ toks, c ∈ t) ∨ c ∈ sep := by
  induction toks with
  | nil => simp [interChars] at hc
  | cons t ts ih =>
    cases ts with
    | nil =>
      rw [show interChars sep [t] = t from rfl] at hc
      exact Or.inl ⟨t, by simp, hc⟩
    | cons u ts2 =>
      rw [show interChars sep (t :: u :: ts2) = t ++ sep ++ interChars sep (u :: ts2)
        from rfl] at hc
      rcases List.mem_append.mp hc with h1 | h2
      · rcases List.mem_append.mp h1 with ha | hb
        · exact Or.inl ⟨t, by simp, ha⟩
        · exact Or.inr hb
      · rcases ih h2 with ⟨t2, ht2, hct⟩ | hs
        · exact Or.inl ⟨t2, by simp [ht2], hct⟩
        · exact Or.inr hs

theorem interChars_head {sep : List Char} {x : Char} {t0 : List Char}
    (ts : List (List Char)) :
    (interChars sep ((x :: t0) :: ts)).head? = some x := by
  cases ts with
  | nil => rfl
  | cons u ts2 =>
    rw [show interChars sep ((x :: t0) :: u :: ts2) =
      (x :: t0) ++ sep ++ interChars sep (u :: ts2) from rfl]
    simp

theorem interChars_getLast {sep : List Char} (toks : List (List Char))
    (h : ∀ t ∈ toks, t ≠ []) :
    ∀ {c : Char}, (interChars sep toks).getLast? = some c →
      ∃ t ∈ toks, t.getLast? = some c := by
  induction toks with
  | nil => intro c hc; simp [interChars] at hc
  | cons t ts ih =>
    intro c hc
    cases ts with
    | nil =>
      rw [show interChars sep [t] = t from rfl] at hc
      exact ⟨t, by simp, hc⟩
    | cons u ts2 =>
      rw [show interChars sep (t :: u :: ts2) = t ++ sep ++ interChars sep (u :: ts2)
        from rfl] at hc
      have hne : interChars sep (u :: ts2) ≠ [] := interChars_ne_nil (h u (by simp))
      rw [List.getLast?_append_of_ne_nil _ hne] at hc
      obtain ⟨t2, ht2, hg⟩ := ih (fun x hx => h x (by simp [hx])) hc
      exact ⟨t2, by simp [ht2], hg⟩

end Rasterio

namespace Rasterio

/-! ### Python dict construction -/

theorem dictInsert_keys {α : Type} (m : List (String × α)) (k : String) (v : α) :
    (dictInsert m k v).map Prod.fst =
      if k ∈ m.map Prod.fst then m.map Prod.fst else m.map Prod.fst ++ [k] := by
  induction m with
  | nil => simp [dictInsert]
  | cons p r ih =>
    obtain ⟨k0, v0⟩ := p
    unfold dictInsert
    by_cases h : k0 = k
    · subst h
      simp
    · rw [if_neg h]
      simp only [List.map_cons, ih]
      by_cases h2 : k ∈ r.map Prod.fst
      · rw [if_pos h2, if_pos (by simp [h2])]
      · rw [if_neg h2, if_neg (by simp [h2]; exact fun he => h he.symm)]
        simp

theorem dictInsert_notmem {α : Type} {m : List (String × α)} {k : String} (v : α)
    (h : k ∉ m.map Prod.fst) : dictInsert m k v = m ++ [(k, v)] := by
  induction m with
  | nil => rfl
  | cons p r ih =>
    obtain ⟨k0, v0⟩ := p
    unfold dictInsert
    rw [if_neg (by intro he; exact h (by simp [he]))]
    rw [ih (by intro hm; exact h (by simp [hm]))]
    simp

theorem foldl_dict_nodup {α : Type} (l : List (String × α)) :
    ∀ m : List (String × α), (((m ++ l).map Prod.fst).Nodup) →
      List.foldl (fun acc kv => dictInsert acc kv.1 kv.2) m l = m ++ l := by
  induction l with
  | nil => intro m _; simp
  | cons p r ih =>
    intro m h
    simp only [List.foldl_cons]
    have hk : p.1 ∉ m.map Prod.fst := by
      intro hmem
      rw [List.map_append] at h
      rw [List.nodup_append] at h
      exact h.2.2 hmem (by simp)
    rw [dictInsert_notmem _ hk]
    have hre : (m ++ [p]) ++ r = m ++ p :: r := by simp
    rw [show m ++ p :: r = (m ++ [p]) ++ r from hre.symm] at h
    rw [ih (m ++ [p]) h, hre]

theorem dictOfPairs_nodup {α : Type} {l : List (String × α)}
    (h : (l.map Prod.fst).Nodup) : dictOfPairs l = l := by
  unfold dictOfPairs
  have := foldl_dict_nodup l [] (by simpa using h)
  simpa using this

theorem dictInsert_nodup_keys {α : Type} {m : List (String × α)} (k : String) (v : α)
    (h : (m.map Prod.fst).Nodup) : ((dictInsert m k v).map Prod.fst).Nodup := by
  rw [dictInsert_keys]
  by_cases h2 : k ∈ m.map Prod.fst
  · rw [if_pos h2]; exact h
  · rw [if_neg h2]
    simp [List.nodup_append, h, h2]

theorem dictOfPairs_keys_nodup {α : Type} (l : List (String × α)) :
    ((dictOfPairs l).map Prod.fst).Nodup := by
  unfold dictOfPairs
  induction l using List.reverseRecOn with
  | nil => simp
  | append_singleton r p ih =>
    rw [List.foldl_append]
    exact dictInsert_nodup_keys p.1 p.2 ih

theorem dictInsert_mem {α : Type} {m : List (String × α)}
    (hn : (m.map Prod.fst).Nodup) (k0 : String) (v0 : α) (k : String) (v : α) :
    ((k, v) ∈ dictInsert m k0 v0 ↔ (if k = k0 then v = v0 else (k, v) ∈ m)) := by
  induction m with
  | nil =>
    simp only [dictInsert, List.mem_singleton, Prod.mk.injEq]
    by_cases h : k = k0
    · simp [h]
    · simp [h]
  | cons p r ih =>
    obtain ⟨k1, v1⟩ := p
    have hn2 : (r.map Prod.fst).Nodup := by
      simp only [List.map_cons, List.nodup_cons] at hn
      exact hn.2
    have hk1r : k1 ∉ r.map Prod.fst := by
      simp only [List.map_cons, List.nodup_cons] at hn
      exact hn.1
    unfold dictInsert
    by_cases h1 : k1 = k0
    · subst h1
      rw [if_pos rfl]
      by_cases hk : k = k1
      · subst hk
        simp only [if_pos rfl, List.mem_cons, Prod.mk.injEq]
        constructor
        · intro hc
          rcases hc with ⟨_, hv⟩ | hmem
          · exact hv
          · exact absurd (List.mem_map.mpr ⟨(k, v), hmem, rfl⟩) hk1r
        · intro hv
          exact Or.inl ⟨trivial, hv⟩
      · rw [if_neg hk]
        simp [hk]
    · rw [if_neg h1]
      by_cases hk : k = k0
      · subst hk
        rw [if_pos rfl]
        have hkk1 : k ≠ k1 := fun he => h1 (he ▸ rfl)
        simp only [List.mem_cons, Prod.mk.injEq]
        rw [ih hn2]
        simp [hkk1, if_pos rfl]
      · rw [if_neg hk]
        simp only [List.mem_cons, Prod.mk.injEq]
        rw [ih hn2]
        simp [hk]

theorem dictOfPairs_mem {α : Type} [DecidableEq α] (l : List (String × α)) (k : String) (v : α) :
    ((k, v) ∈ dictOfPairs l ↔ l.reverse.find? (fun p => p.1 == k) = some (k, v)) := by
  induction l using List.reverseRecOn with
  | nil => simp [dictOfPairs]
  | append_singleton r p ih =>
    obtain ⟨k0, v0⟩ := p
    have hstep : dictOfPairs (r ++ [(k0, v0)]) = dictInsert (dictOfPairs r) k0 v0 := by
      unfold dictOfPairs
      rw [List.foldl_append]
      rfl
    rw [hstep, dictInsert_mem (dictOfPairs_keys_nodup r) k0 v0 k v]
    rw [List.reverse_append]
    simp only [List.reverse_singleton, List.singleton_append]
    by_cases hk : k = k0
    · subst hk
      rw [if_pos rfl, List.find?_cons_of_pos _ (by simp)]
      simp [eq_comm]
    · rw [if_neg hk, List.find?_cons_of_neg _ (by simp; exact fun he => hk he.symm)]
      exact ih

end Rasterio

namespace Rasterio

/-! ### First-seen key order -/

theorem bool_eq_of_iff {a b : Bool} (h : a = true ↔ b = true) : a = b := by
  cases a <;> cases b <;> simp_all

theorem contains_iff {α : Type} [BEq α] [LawfulBEq α] {l : List α} {x : α} :
    l.contains x = true ↔ x ∈ l :=
  List.elem_iff

theorem firstSeenAux_congr {l : List String} :
    ∀ {s1 s2 : List String}, (∀ x, s1.contains x = s2.contains x) →
      firstSeenAux l s1 = firstSeenAux l s2 := by
  induction l with
  | nil => intro s1 s2 _; rfl
  | cons k r ih =>
    intro s1 s2 h
    unfold firstSeenAux
    rw [h k]
    by_cases hc : s2.contains k = true
    · simp only [if_pos hc]
      exact ih h
    · simp only [if_neg hc]
      congr 1
      refine ih (fun x => ?_)
      apply bool_eq_of_iff
      rw [contains_iff, contains_iff]
      constructor
      · intro hx
        rcases List.mem_cons.mp hx with rfl | hx2
        · simp
        · exact List.mem_cons.mpr (Or.inr (contains_iff.mp (by rw [← h x]; exact contains_iff.mpr hx2)))
      · intro hx
        rcases List.mem_cons.mp hx with rfl | hx2
        · simp
        · exact List.mem_cons.mpr (Or.inr (contains_iff.mp (by rw [h x]; exact contains_iff.mpr hx2)))

theorem foldl_dict_keys {α : Type} (l : List (String × α)) :
    ∀ m : List (String × α),
      (List.foldl (fun acc kv => dictInsert acc kv.1 kv.2) m l).map Prod.fst =
        m.map Prod.fst ++ firstSeenAux (l.map Prod.fst) (m.map Prod.fst) := by
  induction l with
  | nil => intro m; simp [firstSeenAux]
  | cons p r ih =>
    intro m
    simp only [List.foldl_cons, List.map_cons]
    unfold firstSeenAux
    by_cases h : p.1 ∈ m.map Prod.fst
    · have hc : (m.map Prod.fst).contains p.1 = true := contains_iff.mpr h
      simp only [hc, if_pos]
      rw [ih (dictInsert m p.1 p.2)]
      rw [dictInsert_keys, if_pos h]
    · have hc : ¬ (m.map Prod.fst).contains p.1 = true := fun hc2 => h (contains_iff.mp hc2)
      simp only [if_neg hc]
      rw [ih (dictInsert m p.1 p.2)]
      rw [dictInsert_keys, if_neg h]
      have hcong : firstSeenAux (r.map Prod.fst) ((m.map Prod.fst) ++ [p.1]) =
          firstSeenAux (r.map Prod.fst) (p.1 :: m.map Prod.fst) := by
        refine firstSeenAux_congr (fun x => bool_eq_of_iff ?_)
        rw [contains_iff, contains_iff]
        simp [List.mem_append, or_comm]
      rw [hcong]
      simp

end Rasterio

namespace Rasterio

/-! ### The sort used by `to_string` -/

theorem lexLe_total (a b : List Char) : lexLeChars a b = true ∨ lexLeChars b a = true := by
  induction a generalizing b with
  | nil => left; rfl
  | cons x as ih =>
    cases b with
    | nil => right; rfl
    | cons y bs =>
      unfold lexLeChars
      by_cases hxy : x = y
      · subst hxy
        simp only [if_pos rfl]
        exact ih bs
      · rw [if_neg hxy, if_neg (fun he => hxy he.symm)]
        rcases lt_or_gt_of_ne (show x ≠ y from hxy) with h | h
        · left; exact decide_eq_true h
        · right; exact decide_eq_true h

theorem lexLe_trans {a b c : List Char} (h1 : lexLeChars a b = true)
    (h2 : lexLeChars b c = true) : lexLeChars a c = true := by
  induction a generalizing b c with
  | nil => rfl
  | cons x as ih =>
    cases b with
    | nil => exact absurd h1 (by simp [lexLeChars])
    | cons y bs =>
      cases c with
      | nil => exact absurd h2 (by simp [lexLeChars])
      | cons z cs =>
        unfold lexLeChars at h1 h2 ⊢
        by_cases hxy : x = y
        · subst hxy
          rw [if_pos rfl] at h1
          by_cases hxz : x = z
          · subst hxz
            rw [if_pos rfl] at h2 ⊢
            exact ih h1 h2
          · rw [if_neg hxz] at h2 ⊢
            exact h2
        · rw [if_neg hxy] at h1
          have hlt1 : x < y := of_decide_eq_true h1
          by_cases hyz : y = z
          · subst hyz
            rw [if_neg hxy]
            exact decide_eq_true hlt1
          · rw [if_neg hyz] at h2
            have hlt2 : y < z := of_decide_eq_true h2
            have hxz : x < z := lt_trans hlt1 hlt2
            rw [if_neg (ne_of_lt hxz)]
            exact decide_eq_true hxz

theorem lexLe_antisymm {a b : List Char} (h1 : lexLeChars a b = true)
    (h2 : lexLeChars b a = true) : a = b := by
  induction a generalizing b with
  | nil =>
    cases b with
    | nil => rfl
    | cons y bs => exact absurd h2 (by simp [lexLeChars])
  | cons x as ih =>
    cases b with
    | nil => exact absurd h1 (by simp [lexLeChars])
    | cons y bs =>
      unfold lexLeChars at h1 h2
      by_cases hxy : x = y
      · subst hxy
        rw [if_pos rfl] at h1 h2
        rw [ih h1 h2]
      · rw [if_neg hxy] at h1
        rw [if_neg (fun he => hxy he.symm)] at h2
        have hlt1 : x < y := of_decide_eq_true h1
        have hlt2 : y < x := of_decide_eq_true h2
        exact absurd hlt1 (not_lt_of_gt hlt2)

theorem pairLe_total (x y : String × PVal) : pairLe x y = true ∨ pairLe y x = true :=
  lexLe_total _ _

theorem pairLe_trans {x y z : String × PVal} (h1 : pairLe x y = true)
    (h2 : pairLe y z = true) : pairLe x z = true :=
  lexLe_trans h1 h2

theorem pairLe_keys_eq {x y : String × PVal} (h1 : pairLe x y = true)
    (h2 : pairLe y x = true) : x.1 = y.1 := by
  have := lexLe_antisymm h1 h2
  exact String.ext this

theorem insLe_perm {α : Type} (le : α → α → Bool) (x : α) (l : List α) :
    (insLe le x l).Perm (x :: l) := by
  induction l with
  | nil => simp [insLe]
  | cons y ys ih =>
    unfold insLe
    by_cases h : le x y = true
    · rw [if_pos h]
    · rw [if_neg h]
      exact (ih.cons y).trans (List.Perm.swap x y ys)

theorem sortBy_perm {α : Type} (le : α → α → Bool) (l : List α) :
    (sortBy le l).Perm l := by
  induction l with
  | nil => simp [sortBy]
  | cons x xs ih =>
    show (insLe le x (sortBy le xs)).Perm (x :: xs)
    exact (insLe_perm le x (sortBy le xs)).trans (ih.cons x)

theorem insLe_pairwise {α : Type} {le : α → α → Bool}
    (htot : ∀ a b, le a b = true ∨ le b a = true)
    (htr : ∀ a b c, le a b = true → le b c = true → le a c = true)
    (x : α) {l : List α} (h : l.Pairwise (fun a b => le a b = true)) :
    (insLe le x l).Pairwise (fun a b => le a b = true) := by
  induction l with
  | nil => simp [insLe]
  | cons y ys ih =>
    unfold insLe
    by_cases hxy : le x y = true
    · rw [if_pos hxy]
      refine List.Pairwise.cons ?_ h
      intro b hb
      rcases List.mem_cons.mp hb with rfl | hbs
      · exact hxy
      · have hyb : le y b = true := by
          rw [List.pairwise_cons] at h
          exact h.1 b hbs
        exact htr x y b hxy hyb
    · rw [if_neg hxy]
      rw [List.pairwise_cons] at h
      refine List.Pairwise.cons ?_ (ih h.2)
      intro b hb
      have hb2 : b ∈ x :: ys := (insLe_perm le x ys).mem_iff.mp hb
      rcases List.mem_cons.mp hb2 with rfl | hbs
      · rcases htot y b with hy | hy
        · exact hy
        · exact absurd hy hxy
      · exact h.1 b hbs

theorem sortBy_pairwise {α : Type} {le : α → α → Bool}
    (htot : ∀ a b, le a b = true ∨ le b a = true)
    (htr : ∀ a b c, le a b = true → le b c = true → le a c = true)
    (l : List α) : (sortBy le l).Pairwise (fun a b => le a b = true) := by
  induction l with
  | nil => simp [sortBy]
  | cons x xs ih => exact insLe_pairwise htot htr x ih

theorem sorted_nodup_keys_eq :
    ∀ {l1 l2 : List (String × PVal)}, l1.Perm l2 →
      l1.Pairwise (fun a b => pairLe a b = true) →
      l2.Pairwise (fun a b => pairLe a b = true) →
      (l1.map Prod.fst).Nodup → l1 = l2 := by
  intro l1
  induction l1 with
  | nil => intro l2 hp _ _ _; rw [hp.nil_eq]
  | cons a t1 ih =>
    intro l2 hp hs1 hs2 hnd
    cases l2 with
    | nil => exact absurd hp.symm (by simp)
    | cons b t2 =>
      by_cases hab : a = b
      · subst hab
        have htp : t1.Perm t2 := hp.cons_inv
        rw [List.pairwise_cons] at hs1 hs2
        rw [List.map_cons, List.nodup_cons] at hnd
        rw [ih htp hs1.2 hs2.2 hnd.2]
      · have ha2 : a ∈ b :: t2 := hp.mem_iff.mp (by simp)
        have hb1 : b ∈ a :: t1 := hp.mem_iff.mpr (by simp)
        have hat2 : a ∈ t2 := by
          rcases List.mem_cons.mp ha2 with rfl | h
          · exact absurd rfl hab
          · exact h
        have hbt1 : b ∈ t1 := by
          rcases List.mem_cons.mp hb1 with rfl | h
          · exact absurd rfl hab
          · exact h
        rw [List.pairwise_cons] at hs1 hs2
        have h1 : pairLe a b = true := hs1.1 b hbt1
        have h2 : pairLe b a = true := hs2.1 a hat2
        have hkey : a.1 = b.1 := pairLe_keys_eq h1 h2
        rw [List.map_cons, List.nodup_cons] at hnd
        exact absurd (hkey ▸ List.mem_map.mpr ⟨b, hbt1, rfl⟩) hnd.1

end Rasterio

namespace Rasterio

/-! ### Facts about the vocabulary keys and the rendering of one item -/

theorem vocab_keys_good : ∀ k ∈ all_proj_keys, k.toList ≠ [] ∧
    ∀ c ∈ k.toList, pyWs c = false ∧ c ≠ '=' ∧ c ≠ lbrace ∧ c ≠ '+' := by
  decide

theorem valKept_int (n : Int) : valKept (PVal.pint n) = true := by
  by_cases h : n = 0 <;> simp [valKept, pyTruthy, pyEqZero, isTrueB, h]

theorem valKept_float (f : PyFloat) : valKept (PVal.pfloat f) = true := by
  by_cases h : f.num = 0 <;> simp [valKept, pyTruthy, pyEqZero, isTrueB, h]

theorem valKept_str {s : String} (h : s.toList ≠ []) : valKept (PVal.pstr s) = true := by
  simp [valKept, pyTruthy, pyEqZero, isTrueB, List.isEmpty_iff]
  exact h

theorem renderChars_bare {k : String} (hk : k.toList ≠ []) {v : PVal}
    (hv : valKept v = false) : renderChars (k, v) = '+' :: k.toList := by
  unfold renderChars
  rw [if_neg (by simp [List.isEmpty_iff]; exact hk), hv]
  rfl

theorem renderChars_val {k : String} (hk : k.toList ≠ []) {v : PVal}
    (hv : valKept v = true) :
    renderChars (k, v) = '+' :: (k.toList ++ '=' :: (pyStr v).toList) := by
  unfold renderChars
  rw [if_neg (by simp [List.isEmpty_iff]; exact hk), hv]
  show '+' :: interChars ['='] [k.toList, (pyStr v).toList] = _
  show '+' :: (k.toList ++ ['='] ++ (pyStr v).toList) = _
  simp

theorem pyStr_chars_ok {v : PVal} (hv : goodVal v = true) :
    ∀ c ∈ (pyStr v).toList, pyWs c = false ∧ c ≠ '=' ∧ c ≠ lbrace := by
  intro c hc
  cases v with
  | pbool b =>
    have hb : b = true := by simpa [goodVal] using hv
    subst hb
    simp only [pyStr] at hc
    fin_cases hc <;> exact ⟨by decide, by decide, by decide⟩
  | pint n =>
    rcases intRepr_chars n c hc with h | h
    · have h2 := digit_ne_special h
      exact ⟨digit_not_ws h, h2.2.2.2.1, h2.2.2.2.2.1⟩
    · subst h
      exact ⟨by decide, by decide, by decide⟩
  | pfloat f =>
    have hk : (pow10Exp f.den).isSome = true := by
      have := hv
      simp [goodVal, Bool.and_eq_true] at this
      exact this.2
    rcases (floatRepr_chars hk).1 c hc with h | h | h
    · have h2 := digit_ne_special h
      exact ⟨digit_not_ws h, h2.2.2.2.1, h2.2.2.2.2.1⟩
    · subst h
      exact ⟨by decide, by decide, by decide⟩
    · subst h
      exact ⟨by decide, by decide, by decide⟩
  | pstr s =>
    have hs : goodStr s = true := by simpa [goodVal] using hv
    unfold goodStr at hs
    simp only [Bool.and_eq_true, List.all_eq_true] at hs
    have := hs.1.2 c hc
    simp only [Bool.and_eq_true, Bool.not_eq_eq_eq_not, Bool.not_true,
      decide_eq_true_eq] at this
    exact ⟨this.1.1, by simpa using this.1.2, by simpa using this.2⟩
  | pnone => simp [goodVal] at hv
  | pobj j => simp [goodVal] at hv

theorem parse_pyStr {v : PVal} (hv : goodVal v = true) : parse (pyStr v) = v := by
  cases v with
  | pbool b =>
    have hb : b = true := by simpa [goodVal] using hv
    subst hb
    rfl
  | pint n => exact parse_intRepr n
  | pfloat f =>
    have h2 : pfCanon f = true ∧ (pow10Exp f.den).isSome = true := by
      simpa [goodVal, Bool.and_eq_true] using hv
    exact parse_floatRepr h2.1 h2.2
  | pstr s =>
    have hs : goodStr s = true := by simpa [goodVal] using hv
    exact parse_pstr hs
  | pnone => simp [goodVal] at hv
  | pobj j => simp [goodVal] at hv

end Rasterio

namespace Rasterio

theorem drop_plus_body {l : List Char} (hl : ∀ c, l.head? = some c → c ≠ '+') :
    ('+' :: l).dropWhile (fun c => c = '+') = l := by
  rw [List.dropWhile_cons, if_pos (by simp)]
  apply dropWhile_eq_self_of_head
  intro c hc
  simp [hl c hc]

theorem goodVal_not_kept {v : PVal} (hv : goodVal v = true) (hk : valKept v = false) :
    v = PVal.pbool true := by
  cases v with
  | pbool b =>
    cases b with
    | true => rfl
    | false => simp [goodVal] at hv
  | pint n => rw [valKept_int] at hk; exact Bool.noConfusion hk
  | pfloat f => rw [valKept_float] at hk; exact Bool.noConfusion hk
  | pstr s =>
    have hs : goodStr s = true := by simpa [goodVal] using hv
    have hne : s.toList ≠ [] := by
      unfold goodStr at hs
      simp only [Bool.and_eq_true] at hs
      simpa [List.isEmpty_iff] using hs.1.1
    rw [valKept_str hne] at hk
    exact Bool.noConfusion hk
  | pnone => simp [goodVal] at hv
  | pobj j => simp [goodVal] at hv

theorem render_token_facts {k : String} {v : PVal} (hk : k ∈ all_proj_keys)
    (hv : goodVal v = true) :
    renderChars (k, v) ≠ [] ∧
      (∀ c ∈ renderChars (k, v), pyWs c = false) ∧
      (∀ c ∈ renderChars (k, v), c ≠ lbrace) ∧
      (renderChars (k, v)).head? = some '+' ∧
      tokenItem ((renderChars (k, v)).dropWhile (fun c => c = '+')) = (k, v) := by
  obtain ⟨hkne, hkchars⟩ := vocab_keys_good k hk
  have hkhead : ∀ c, k.toList.head? = some c → c ≠ '+' := by
    intro c hc
    exact (hkchars c (List.mem_of_mem_head? hc)).2.2.2
  by_cases hkept : valKept v = true
  · rw [renderChars_val hkne hkept]
    have hdrop : ('+' :: (k.toList ++ '=' :: (pyStr v).toList)).dropWhile (fun c => c = '+') =
        k.toList ++ '=' :: (pyStr v).toList := by
      apply drop_plus_body
      intro c hc
      cases hkl : k.toList with
      | nil => exact absurd hkl hkne
      | cons x r =>
        rw [hkl] at hc
        simp only [List.cons_append, List.head?_cons, Option.some.injEq] at hc
        rw [← hc]
        exact hkhead x (by rw [hkl]; rfl)
    refine ⟨by simp, ?_, ?_, by simp, ?_⟩
    · intro c hc
      rcases List.mem_cons.mp hc with rfl | hc2
      · decide
      · rcases List.mem_append.mp hc2 with hik | hiv
        · exact (hkchars c hik).1
        · rcases List.mem_cons.mp hiv with rfl | hc3
          · decide
          · exact (pyStr_chars_ok hv c hc3).1
    · intro c hc
      rcases List.mem_cons.mp hc with rfl | hc2
      · decide
      · rcases List.mem_append.mp hc2 with hik | hiv
        · exact (hkchars c hik).2.2.1
        · rcases List.mem_cons.mp hiv with rfl | hc3
          · decide
          · exact (pyStr_chars_ok hv c hc3).2.2
    · rw [hdrop]
      rw [show ('=' :: (pyStr v).toList) = '=' :: (pyStr v).toList from rfl]
      rw [tokenItem_pair (fun x hx => (hkchars x hx).2.1)
        (fun x hx => (pyStr_chars_ok hv x hx).2.1)]
      rw [parse_pyStr hv]
  · have hkept2 : valKept v = false := by
      rw [Bool.not_eq_true] at hkept
      exact hkept
    have hvb := goodVal_not_kept hv hkept2
    subst hvb
    rw [renderChars_bare hkne hkept2]
    refine ⟨by simp, ?_, ?_, by simp, ?_⟩
    · intro c hc
      rcases List.mem_cons.mp hc with rfl | hc2
      · decide
      · exact (hkchars c hc2).1
    · intro c hc
      rcases List.mem_cons.mp hc with rfl | hc2
      · decide
      · exact (hkchars c hc2).2.2.1
    · rw [drop_plus_body hkhead]
      exact tokenItem_bare (fun x hx => (hkchars x hx).2.1)

end Rasterio

namespace Rasterio

/-! ### The round-trip core -/

theorem keepItem_good {kv : String × PVal} (hk : kv.1 ∈ all_proj_keys)
    (hv : goodVal kv.2 = true) : keepItem kv = true := by
  obtain ⟨k, v⟩ := kv
  unfold keepItem
  simp only [Bool.and_eq_true]
  refine ⟨⟨contains_iff.mpr hk, ?_⟩, ?_⟩
  · cases v with
    | pbool b =>
      have hb : b = true := by simpa [goodVal] using hv
      subst hb
      rfl
    | pint n => rfl
    | pfloat f => rfl
    | pstr s => rfl
    | pnone => simp [goodVal] at hv
    | pobj j => simp [goodVal] at hv
  · cases v with
    | pnone => simp [goodVal] at hv
    | pobj j => simp [goodVal] at hv
    | pbool b => rfl
    | pint n => rfl
    | pfloat f => rfl
    | pstr s => rfl

theorem sameContents_of_perm {a b : List (String × PVal)} (h : a.Perm b) :
    sameContents a b = true := by
  unfold sameContents
  simp only [Bool.and_eq_true, List.all_eq_true]
  exact ⟨fun p hp => contains_iff.mpr (h.mem_iff.mp hp),
    fun p hp => contains_iff.mpr (h.mem_iff.mpr hp)⟩

theorem decode_encode_good (M : List (String × PVal)) (hne : M ≠ [])
    (hnodup : (M.map Prod.fst).Nodup)
    (hgood : ∀ kv ∈ M, kv.1 ∈ all_proj_keys ∧ goodVal kv.2 = true) :
    from_string (to_string M) = .ok (.crs (sortBy pairLe M)) := by
  have hfilter : M.filter keepItem = M :=
    List.filter_eq_self.mpr (fun kv hkv => keepItem_good (hgood kv hkv).1 (hgood kv hkv).2)
  have hperm : (sortBy pairLe M).Perm M := sortBy_perm pairLe M
  have hSgood : ∀ kv ∈ sortBy pairLe M, kv.1 ∈ all_proj_keys ∧ goodVal kv.2 = true :=
    fun kv hkv => hgood kv (hperm.mem_iff.mp hkv)
  have hSnodup : ((sortBy pairLe M).map Prod.fst).Nodup :=
    hnodup.perm (hperm.map Prod.fst).symm
  have hSne : sortBy pairLe M ≠ [] := by
    intro h0
    rw [← List.length_eq_zero] at h0
    rw [hperm.length_eq] at h0
    exact hne (List.length_eq_zero.mp h0)
  have hfacts : ∀ kv ∈ sortBy pairLe M,
      renderChars kv ≠ [] ∧ (∀ c ∈ renderChars kv, pyWs c = false) ∧
      (∀ c ∈ renderChars kv, c ≠ lbrace) ∧ (renderChars kv).head? = some '+' ∧
      tokenItem ((renderChars kv).dropWhile (fun c => c = '+')) = kv := by
    intro kv hkv
    obtain ⟨k, v⟩ := kv
    exact render_token_facts (hSgood (k, v) hkv).1 (hSgood (k, v) hkv).2
  have hts : to_string M =
      String.mk (interChars [' '] ((sortBy pairLe M).map renderChars)) := by
    unfold to_string
    rw [hfilter]
  have htl : (to_string M).toList = interChars [' '] ((sortBy pairLe M).map renderChars) := by
    rw [hts]
    rfl
  have hguard1 : (to_string M).toList.contains lbrace = false := by
    rw [htl]
    rw [Bool.eq_false_iff]
    intro hcon
    have hmem := contains_iff.mp hcon
    rcases interChars_mem hmem with ⟨t, ht, hct⟩ | hs
    · obtain ⟨kv, hkv, rfl⟩ := List.mem_map.mp ht
      exact (hfacts kv hkv).2.2.1 lbrace hct rfl
    · simp [lbrace] at hs
  have hheadJ : (interChars [' '] ((sortBy pairLe M).map renderChars)).head? = some '+' := by
    cases hS : sortBy pairLe M with
    | nil => exact absurd hS hSne
    | cons s0 S2 =>
      have hf0 := hfacts s0 (by rw [hS]; simp)
      cases hr0 : renderChars s0 with
      | nil => exact absurd hr0 hf0.1
      | cons c b =>
        have : c = '+' := by
          have := hf0.2.2.2.1
          rw [hr0] at this
          simpa using this
        subst this
        simp only [List.map_cons, hr0]
        exact interChars_head _
  have hstrip : pyStripChars (to_string M).toList = (to_string M).toList := by
    apply pyStrip_noop
    · intro c hc
      rw [htl] at hc
      have hcp : c = '+' := by
        rw [hheadJ] at hc
        exact (Option.some.inj hc).symm
      subst hcp
      decide
    · intro c hc
      rw [htl] at hc
      have hwit := interChars_getLast ((sortBy pairLe M).map renderChars)
        (by
          intro t ht
          obtain ⟨kv, hkv, rfl⟩ := List.mem_map.mp ht
          exact (hfacts kv hkv).1) hc
      obtain ⟨t, ht, hg⟩ := hwit
      obtain ⟨kv, hkv, rfl⟩ := List.mem_map.mp ht
      exact (hfacts kv hkv).2.1 c (getLast?_mem hg)
  have hguard2 : epsgGuardB (to_string M) = false := by
    unfold epsgGuardB
    rw [hstrip, htl]
    cases hJ : interChars [' '] ((sortBy pairLe M).map renderChars) with
    | nil => rfl
    | cons c rest =>
      have : c = '+' := by
        rw [hJ] at hheadJ
        simpa using hheadJ
      subst this
      show startsList ('E' :: "PSG:".toList) (upperChars ('+' :: rest)) = false
      unfold upperChars
      rw [List.map_cons]
      unfold startsList
      rw [show Char.toUpper '+' = '+' from by decide]
      simp
  have hsplit : splitWsChars (to_string M).toList =
      (sortBy pairLe M).map renderChars := by
    rw [htl]
    apply splitWs_join
    intro t ht
    obtain ⟨kv, hkv, rfl⟩ := List.mem_map.mp ht
    exact ⟨(hfacts kv hkv).1, (hfacts kv hkv).2.1⟩
  have hproj : projPath (to_string M) = sortBy pairLe M := by
    unfold projPath
    rw [hstrip, hsplit]
    have hitems : List.map tokenItem
        (List.map (fun o => List.dropWhile (fun c => decide (c = '+')) o)
          (List.map renderChars (sortBy pairLe M))) = sortBy pairLe M := by
      rw [List.map_map, List.map_map]
      conv_rhs => rw [show sortBy pairLe M = List.map id (sortBy pairLe M)
        from (List.map_id _).symm]
      apply List.map_congr_left
      intro kv hkv
      exact (hfacts kv hkv).2.2.2.2
    rw [hitems]
    rw [List.filter_eq_self.mpr (fun kv hkv =>
      contains_iff.mpr (hSgood kv hkv).1)]
    exact dictOfPairs_nodup hSnodup
  unfold from_string
  rw [hguard1, hguard2, hproj]
  rw [if_neg (show ¬ (false = true) from by simp)]
  rw [if_neg (show ¬ (false = true) from by simp)]
  rw [if_neg (show ¬ ((sortBy pairLe M).isEmpty = true) from by
    simp only [List.isEmpty_iff]
    exact hSne)]

end Rasterio

namespace Rasterio

/-! ## Claims -/

/-- Claim C1, as stated, is false: the mapping `{"proj": "True"}` has a
vocabulary key and a text value that is not boolean false, yet decoding its
encoding `"+proj=True"` yields `{"proj": True}` (boolean), which is not
equal to the original as a set of key/value pairs. -/
theorem C1_roundtrip_counterexample :
    from_string (to_string [("proj", PVal.pstr "True")]) =
      .ok (.crs [("proj", PVal.pbool true)]) ∧
    sameContents [("proj", PVal.pbool true)] [("proj", PVal.pstr "True")] = false := by
  exact ⟨by decide, by decide⟩

/-- Claim C1 (amended): for every nonempty mapping `M` with distinct keys,
all keys in the Parameter Vocabulary, and every value boolean true, an
integer, a float (in lowest terms with a denominator dividing a power of
ten, as every Python float is), or a text value that the scalar-typing rule
leaves unchanged and that contains no whitespace, `=` or `{`, decoding the
encoding of `M` succeeds and yields a mapping with exactly the same
key/value pairs (in sorted key order). -/
theorem C1_roundtrip_amended (M : List (String × PVal)) (hne : M ≠ [])
    (hnodup : (M.map Prod.fst).Nodup)
    (hgood : ∀ kv ∈ M, kv.1 ∈ all_proj_keys ∧ goodVal kv.2 = true) :
    ∃ D, from_string (to_string M) = .ok (.crs D) ∧ sameContents D M = true :=
  ⟨sortBy pairLe M, decode_encode_good M hne hnodup hgood,
    sameContents_of_perm (sortBy_perm pairLe M)⟩

/-- Witness for C1: a concrete four-entry mapping with a text, an integer,
a boolean and a float value round-trips. -/
theorem C1_roundtrip_amended_witness :
    ∃ D, from_string (to_string [("proj", PVal.pstr "longlat"), ("zone", PVal.pint 10),
      ("no_defs", PVal.pbool true), ("lat_0", PVal.pfloat ⟨91, 2⟩)]) = .ok (.crs D) ∧
      sameContents D [("proj", PVal.pstr "longlat"), ("zone", PVal.pint 10),
        ("no_defs", PVal.pbool true), ("lat_0", PVal.pfloat ⟨91, 2⟩)] = true :=
  C1_roundtrip_amended _ (by decide) (by decide) (by decide)

end Rasterio

namespace Rasterio

/-- Python `sep.join` over strings agrees with the character-level join. -/
theorem joinSepStr_interChars (sep : String) :
    ∀ ls : List String, joinSepStr sep ls = String.mk (interChars sep.toList (ls.map String.toList)) := by
  intro ls
  induction ls with
  | nil => rfl
  | cons x rest ih =>
    cases rest with
    | nil => rfl
    | cons y r2 =>
      show x ++ sep ++ joinSepStr sep (y :: r2) = _
      rw [ih]
      show String.mk ((x.toList ++ sep.toList) ++ interChars sep.toList ((y :: r2).map String.toList)) = _
      show _ = String.mk (x.toList ++ sep.toList ++ interChars sep.toList ((y :: r2).map String.toList))
      rw [List.append_assoc]

/-- Character list of a `"+key=value"` token built by string appends. -/
theorem toList_pkv (k w : String) :
    ("+" ++ k ++ "=" ++ w).toList = '+' :: (k.toList ++ '=' :: w.toList) := by
  show (('+' :: k.data) ++ ['=']) ++ w.data = '+' :: (k.data ++ '=' :: w.data)
  simp

/-- On a kept item, the spec-side rendering (amended with the empty-text
case) agrees with the source-side rendering. -/
theorem specRender_renderChars {kv : String × PVal} (h : keepItem kv = true) :
    (specRender kv).toList = renderChars kv := by
  obtain ⟨k, v⟩ := kv
  unfold keepItem at h
  simp only [Bool.and_eq_true] at h
  have hkmem : k ∈ all_proj_keys := contains_iff.mp h.1.1
  have hkne : k.toList ≠ [] := (vocab_keys_good k hkmem).1
  cases v with
  | pbool b =>
    cases b with
    | false => simp [isFalseB] at h
    | true =>
      rw [renderChars_bare hkne (by rfl)]
      show ('+' :: k.data) = _
      rfl
  | pint n =>
    rw [renderChars_val hkne (valKept_int n)]
    exact toList_pkv k (intRepr n)
  | pfloat f =>
    rw [renderChars_val hkne (valKept_float f)]
    exact toList_pkv k (floatRepr f)
  | pstr s =>
    by_cases hs : s = ""
    · subst hs
      rw [renderChars_bare hkne (by rfl)]
      show ('+' :: k.data) = _
      simp [specRender]
    · have hsne : s.toList ≠ [] := by
        intro hc
        exact hs (by cases s with | mk d => cases d with
          | nil => rfl
          | cons a r => exact absurd hc (by simp [String.toList]))
      rw [renderChars_val hkne (valKept_str hsne)]
      have hcond : (isTrueB (PVal.pstr s) || PVal.pstr s = PVal.pstr "") = false := by
        simp [isTrueB, hs]
      unfold specRender
      rw [hcond]
      exact toList_pkv k s
  | pnone => simp [isScalar] at h
  | pobj j => simp [isScalar] at h

/-- Claim C2, as stated, is false in one detail: an entry whose value is the
empty text string is rendered as a bare `"+key"` token, not as
`"+key="`. -/
theorem C2_encode_empty_text_counterexample :
    to_string [("proj", PVal.pstr "")] = "+proj" ∧
    ("+proj" : String) ≠ "+proj=" :=
  ⟨by decide, by decide⟩

/-- Claim C2 (amended): `to_string` keeps exactly the entries whose key is
in the vocabulary, whose value is not boolean false, and whose value is
scalar; it sorts the survivors by key, renders boolean-true values — and,
amending the claim, empty-text values — as bare `"+key"` and other
surviving values as `"+key=value"`, joins with single spaces, returns `""`
when nothing survives, and is invariant under permutation of a mapping
with distinct keys; encoding `{"zone": 10, "proj": "utm"}` yields
`"+proj=utm +zone=10"`. -/
theorem C2_encode_spec_amended (M : List (String × PVal))
    (hnodup : (M.map Prod.fst).Nodup) :
    to_string M = joinSepStr " " ((sortBy pairLe (M.filter specKeep)).map specRender) ∧
    (M.filter specKeep = [] → to_string M = "") ∧
    (∀ M2 : List (String × PVal), M.Perm M2 → to_string M2 = to_string M) ∧
    to_string [("zone", PVal.pint 10), ("proj", PVal.pstr "utm")] = "+proj=utm +zone=10" := by
  refine ⟨?_, ?_, ?_, by decide⟩
  · have hmem : ∀ kv ∈ sortBy pairLe (M.filter keepItem), keepItem kv = true := by
      intro kv hkv
      have h2 : kv ∈ M.filter keepItem := (sortBy_perm pairLe (M.filter keepItem)).mem_iff.mp hkv
      exact (List.mem_filter.mp h2).2
    unfold to_string
    rw [joinSepStr_interChars, List.map_map]
    show String.mk (interChars [' '] (List.map renderChars (sortBy pairLe (M.filter keepItem)))) = _
    congr 1
    congr 1
    exact (List.map_congr_left (fun kv hkv => specRender_renderChars (hmem kv hkv))).symm
  · intro h
    have h2 : M.filter keepItem = [] := h
    unfold to_string
    rw [h2]
    rfl
  · intro M2 hperm
    unfold to_string
    have hfp : (M2.filter keepItem).Perm (M.filter keepItem) := hperm.symm.filter keepItem
    have hsub : (M.filter keepItem).Sublist M := List.filter_sublist M
    have hnd : ((M.filter keepItem).map Prod.fst).Nodup :=
      hnodup.sublist (hsub.map Prod.fst)
    have hsp : (sortBy pairLe (M2.filter keepItem)).Perm (sortBy pairLe (M.filter keepItem)) :=
      ((sortBy_perm pairLe (M2.filter keepItem)).trans hfp).trans
        (sortBy_perm pairLe (M.filter keepItem)).symm
    have hnd2 : ((sortBy pairLe (M2.filter keepItem)).map Prod.fst).Nodup := by
      refine ((hsp.trans (sortBy_perm pairLe (M.filter keepItem))).map Prod.fst).nodup_iff.mpr hnd
    have heq : sortBy pairLe (M2.filter keepItem) = sortBy pairLe (M.filter keepItem) :=
      sorted_nodup_keys_eq hsp
        (sortBy_pairwise pairLe_total (fun a b c => pairLe_trans) _)
        (sortBy_pairwise pairLe_total (fun a b c => pairLe_trans) _) hnd2
    rw [heq]

/-- Witness for C2: the two orderings of `{"zone": 10, "proj": "utm"}`
encode identically, to `"+proj=utm +zone=10"`. -/
theorem C2_encode_spec_amended_witness :
    to_string [("proj", PVal.pstr "utm"), ("zone", PVal.pint 10)] =
      to_string [("zone", PVal.pint 10), ("proj", PVal.pstr "utm")] ∧
    to_string [("zone", PVal.pint 10), ("proj", PVal.pstr "utm")] = "+proj=utm +zone=10" :=
  ⟨(C2_encode_spec_amended [("zone", PVal.pint 10), ("proj", PVal.pstr "utm")]
      (by decide)).2.2.1 [("proj", PVal.pstr "utm"), ("zone", PVal.pint 10)] (by decide),
   (C2_encode_spec_amended [("zone", PVal.pint 10), ("proj", PVal.pstr "utm")]
      (by decide)).2.2.2⟩

end Rasterio

namespace Rasterio

/-- Claim C3, as stated, is false in one detail: a token containing more
than one `=` is NOT split on the first `=`; the source treats any token
whose split on `=` has other than exactly two fields as a bare key, so
`"+proj=a=b"` decodes to `\x7b"proj": true\x7d`, not to
`\x7b"proj": "a=b"\x7d`. -/
theorem C3_token_split_counterexample :
    from_string "+proj=a=b" = .ok (.crs [("proj", PVal.pbool true)]) ∧
    PVal.pbool true ≠ PVal.pstr "a=b" :=
  ⟨by decide, by decide⟩

/-- Claim C3 (amended): the PROJ.4 path splits the trimmed input on
whitespace and strips leading `+` from each token (this is built into
`projPath`/`from_string` below); a token containing exactly one `=` is
split there, the left side becoming the key and the right side the
scalar-typed value, while a token whose `=` count is anything other than
one (zero, or two and more) contributes its longest `=`-free prefix as a
bare key with value boolean true; in particular `decode("+no_defs")`
yields exactly `\x7b"no_defs": true\x7d`. -/
theorem C3_token_amended :
    (∀ p : List Char, p.count '=' = 1 →
      tokenItem p = (String.mk (p.takeWhile (fun c => c ≠ '=')),
        parse (String.mk ((p.dropWhile (fun c => c ≠ '=')).tail)))) ∧
    (∀ p : List Char, p.count '=' ≠ 1 →
      tokenItem p = (String.mk (p.takeWhile (fun c => c ≠ '=')), PVal.pbool true)) ∧
    from_string "+no_defs" = .ok (.crs [("no_defs", PVal.pbool true)]) := by
  refine ⟨?_, ?_, by decide⟩
  · intro p h
    unfold tokenItem
    rw [splitOn_count_one h]
  · intro p h
    unfold tokenItem
    have hh := splitOn_headD '=' p
    have hl := splitOn_length '=' p
    cases h2 : splitOnChars '=' p with
    | nil => exact absurd h2 (splitOn_ne_nil '=' p)
    | cons a t =>
      rw [h2] at hh
      simp only [List.headD_cons] at hh
      cases t with
      | nil =>
        show (String.mk a, PVal.pbool true) = _
        rw [hh]
      | cons b t2 =>
        cases t2 with
        | nil =>
          rw [h2] at hl
          simp only [List.length_cons, List.length_nil] at hl
          exact absurd (by omega) h
        | cons c2 t3 =>
          show (String.mk a, PVal.pbool true) = _
          rw [hh]

/-- Witness for C3: `"proj=utm"` has a single `=` and splits into the key
`"proj"` and the parsed value `"utm"`; `"proj=a=b"` has two and is treated
as the bare key `"proj"`. -/
theorem C3_token_amended_witness :
    tokenItem ("proj=utm".toList) = ("proj", PVal.pstr "utm") ∧
    tokenItem ("proj=a=b".toList) = ("proj", PVal.pbool true) := by
  constructor
  · rw [C3_token_amended.1 ("proj=utm".toList) (by decide)]
    decide
  · rw [C3_token_amended.2.1 ("proj=a=b".toList) (by decide)]
    decide

end Rasterio

namespace Rasterio

/-- Claim C4 (confirmed): the scalar-typing rule maps the literals
`"True"`/`"true"` to boolean true and `"False"`/`"false"` to boolean
false; every other value is tried as an exact base-10 integer, then as a
float, and otherwise kept as unmodified text; `decode("+lat_0=45.5
+zone=12")` types `lat_0` as the float 45.5 (= 91/2) and `zone` as the
integer 12, and a partial numeric prefix as in `"12abc"` does not parse as
a number. -/
theorem C4_scalar_typing :
    parse "True" = .pbool true ∧ parse "true" = .pbool true ∧
    parse "False" = .pbool false ∧ parse "false" = .pbool false ∧
    (∀ v : String, v ∉ (["True", "true", "False", "false"] : List String) →
      ((∃ n, pyIntParse v = some n ∧ parse v = .pint n) ∨
       (pyIntParse v = none ∧ ∃ f, pyFloatParse v = some f ∧ parse v = .pfloat f) ∨
       (pyIntParse v = none ∧ pyFloatParse v = none ∧ parse v = .pstr v))) ∧
    from_string "+lat_0=45.5 +zone=12" =
      .ok (.crs [("lat_0", .pfloat ⟨91, 2⟩), ("zone", .pint 12)]) ∧
    parse "12abc" = .pstr "12abc" ∧ pyIntParse "45.5" = none := by
  refine ⟨by decide, by decide, by decide, by decide, ?_, by decide, by decide, by decide⟩
  intro v hv
  simp only [List.mem_cons, List.not_mem_nil, or_false, not_or] at hv
  unfold parse
  rw [if_neg (by simp [hv.1, hv.2.1]), if_neg (by simp [hv.2.2.1, hv.2.2.2])]
  cases hi : pyIntParse v with
  | some n => exact Or.inl ⟨n, rfl, rfl⟩
  | none =>
    cases hf : pyFloatParse v with
    | some f => exact Or.inr (Or.inl ⟨rfl, f, rfl, rfl⟩)
    | none => exact Or.inr (Or.inr ⟨rfl, rfl, rfl⟩)

/-- Witness for C4: the non-literal value `"longlat"` falls through the
integer and float attempts and is kept as text. -/
theorem C4_scalar_typing_witness :
    (∃ n, pyIntParse "longlat" = some n ∧ parse "longlat" = .pint n) ∨
    (pyIntParse "longlat" = none ∧
      ∃ f, pyFloatParse "longlat" = some f ∧ parse "longlat" = .pfloat f) ∨
    (pyIntParse "longlat" = none ∧ pyFloatParse "longlat" = none ∧
      parse "longlat" = .pstr "longlat") :=
  C4_scalar_typing.2.2.2.2.1 "longlat" (by decide)

end Rasterio

namespace Rasterio

/-- Claim C5 (confirmed): the PROJ.4 path keeps only vocabulary keys, the
resulting dict lists surviving keys in first-seen order, a repeated key
keeps its first position but takes the last occurrence's value, every key
of a successfully decoded PROJ.4 mapping is in the vocabulary, and an
empty result fails with the EmptyOrInvalid error carrying the original
input; `decode("+bogus=1 +proj=longlat")` yields only
`\x7b"proj": "longlat"\x7d`, while `decode("+bogus=1")` and `decode("")`
fail. -/
theorem C5_decode_filter_order :
    (∀ l : List (String × PVal), (dictOfPairs l).map Prod.fst = firstSeenKeys (l.map Prod.fst)) ∧
    (∀ (l : List (String × PVal)) (k : String) (v : PVal),
      (k, v) ∈ dictOfPairs l ↔ l.reverse.find? (fun p => p.1 == k) = some (k, v)) ∧
    (∀ (s : String) (D : List (String × PVal)), from_string s = .ok (.crs D) →
      ∀ kv ∈ D, kv.1 ∈ all_proj_keys) ∧
    from_string "+bogus=1 +proj=longlat" = .ok (.crs [("proj", PVal.pstr "longlat")]) ∧
    from_string "+bogus=1" = .error (.emptyOrInvalid "+bogus=1") ∧
    from_string "" = .error (.emptyOrInvalid "") ∧
    from_string "+proj=utm +proj=longlat" = .ok (.crs [("proj", PVal.pstr "longlat")]) := by
  refine ⟨?_, ?_, ?_, by decide, by decide, by decide, by decide⟩
  · intro l
    have h := foldl_dict_keys l []
    simpa [dictOfPairs, firstSeenKeys] using h
  · intro l k v
    exact dictOfPairs_mem l k v
  · intro s D h
    unfold from_string at h
    by_cases h1 : s.toList.contains lbrace = true
    · rw [if_pos h1] at h
      split at h
      · exact absurd h (by simp)
      · split at h
        · exact absurd (Except.ok.inj h) (by simp)
        · exact absurd h (by simp)
    · rw [if_neg h1] at h
      by_cases h2 : epsgGuardB s = true
      · rw [if_pos h2] at h
        split at h
        · exact absurd h (by simp)
        · rename_i m he
          have hD : m = D := Decoded.crs.inj (Except.ok.inj h)
          subst hD
          unfold from_epsg at he
          split at he
          · exact absurd he (by simp)
          · split at he
            · exact absurd he (by simp)
            · have hm := Except.ok.inj he
              rw [← hm]
              intro kv hkv
              rcases List.mem_cons.mp hkv with rfl | hkv2
              · show "init" ∈ all_proj_keys
                decide
              · rcases List.mem_cons.mp hkv2 with rfl | hkv3
                · show "no_defs" ∈ all_proj_keys
                  decide
                · exact absurd hkv3 (List.not_mem_nil kv)
      · rw [if_neg h2] at h
        by_cases h3 : (projPath s).isEmpty = true
        · rw [if_pos h3] at h
          exact absurd h (by simp)
        · rw [if_neg h3] at h
          have hD : projPath s = D := Decoded.crs.inj (Except.ok.inj h)
          intro kv hkv
          rw [← hD] at hkv
          obtain ⟨k, v⟩ := kv
          unfold projPath at hkv
          have hfind := (dictOfPairs_mem _ k v).mp hkv
          have hmem := (List.mem_reverse).mp (List.mem_of_find?_eq_some hfind)
          exact contains_iff.mp (List.mem_filter.mp hmem).2

/-- Witness for C5: the key surviving `decode("+bogus=1 +proj=longlat")`
is in the vocabulary. -/
theorem C5_decode_filter_order_witness :
    ("proj", PVal.pstr "longlat").1 ∈ all_proj_keys :=
  C5_decode_filter_order.2.2.1 "+bogus=1 +proj=longlat" [("proj", PVal.pstr "longlat")]
    (by decide) ("proj", PVal.pstr "longlat") (by decide)

end Rasterio

namespace Rasterio

/-- Claim C6 (confirmed): whenever the input contains `\x7b`, the whole
string is handed to the JSON parser before any other interpretation —
parse failure gives the InvalidJSON error, an empty/falsy decoded value
gives the empty-JSON error, and otherwise the decoded value is returned
verbatim with no vocabulary filtering, so non-vocabulary keys survive the
JSON path. -/
theorem C6_json_path :
    (∀ s : String, s.toList.contains lbrace = true →
      from_string s = (match jsonLoads s with
        | none => .error .invalidJSON
        | some v => if jTruthyB v then .ok (.js v) else .error .emptyJSON)) ∧
    from_string "\x7b\"proj\": \"longlat\", \"bogus\": 1\x7d" =
      .ok (.js (.jobjCons "proj" (.jstr "longlat") (.jobjCons "bogus" (.jint 1) .jobjNil))) ∧
    from_string "\x7b" = .error .invalidJSON ∧
    from_string "\x7b\x7d" = .error .emptyJSON := by
  refine ⟨?_, by decide, by decide, by decide⟩
  intro s h
  unfold from_string
  rw [if_pos h]

/-- Witness for C6: applying the JSON-path rule to the input `"\x7b42\x7d"`
(an object is not required; any JSON value passes through). -/
theorem C6_json_path_witness :
    from_string "\x7b42\x7d" = (match jsonLoads "\x7b42\x7d" with
      | none => .error .invalidJSON
      | some v => if jTruthyB v then .ok (.js v) else .error .emptyJSON) :=
  C6_json_path.1 "\x7b42\x7d" (by decide)

/-- Claim C7 (confirmed): `from_epsg` parses its argument as an integer and
fails with the invalid-EPSG error when the argument is not a valid integer
or is ≤ 0; every positive integer is accepted (no registry validation) and
yields exactly `\x7b"init": "epsg:<code>", "no_defs": true\x7d` with the
init value as text. -/
theorem C7_from_epsg_spec :
    (∀ code : EpsgCode, from_epsg code =
      (match epsgToInt code with
       | none => .error .invalidEPSG
       | some n => if n ≤ 0 then .error .invalidEPSG
         else .ok [("init", .pstr ("epsg:" ++ epsgToStr code)), ("no_defs", .pbool true)])) ∧
    (∀ n : Int, 0 < n → from_epsg (.ofInt n) =
      .ok [("init", .pstr ("epsg:" ++ intRepr n)), ("no_defs", .pbool true)]) ∧
    from_epsg (.ofInt (-5)) = .error .invalidEPSG ∧
    from_epsg (.ofStr "abc") = .error .invalidEPSG ∧
    from_epsg (.ofInt 0) = .error .invalidEPSG := by
  refine ⟨fun code => rfl, ?_, by decide, by decide, by decide⟩
  intro n hn
  unfold from_epsg
  show (if n ≤ 0 then Except.error CRSError.invalidEPSG else _) = _
  rw [if_neg (by omega)]
  rfl

/-- Witness for C7: the positive code 4326 is accepted and produces the
expected two-entry mapping. -/
theorem C7_from_epsg_spec_witness :
    from_epsg (.ofInt 4326) =
      .ok [("init", .pstr "epsg:4326"), ("no_defs", .pbool true)] :=
  (C7_from_epsg_spec.2.1 4326 (by decide)).trans (by decide)

/-- Claim C8, as stated, is false in one detail: the source does not split
the input once on `:` and delegate "the remainder"; it takes only the
SECOND colon-separated field, so `decode("EPSG:4326:7")` succeeds as EPSG
4326 even though `from_epsg` on the remainder `"4326:7"` fails. -/
theorem C8_epsg_split_counterexample :
    from_string "EPSG:4326:7" =
      .ok (.crs [("init", .pstr "epsg:4326"), ("no_defs", .pbool true)]) ∧
    from_epsg (.ofStr "4326:7") = .error .invalidEPSG :=
  ⟨by decide, by decide⟩

/-- Claim C8 (amended): when the input contains no `\x7b` and its trimmed,
upper-cased form starts with `"EPSG:"`, decode splits the input on `:`,
delegates the SECOND field (not the whole remainder) to `from_epsg`, and
propagates its errors unchanged; `decode("EPSG:4326")` and
`from_epsg(4326)` both yield `\x7b"init": "epsg:4326", "no_defs":
true\x7d`. -/
theorem C8_epsg_shorthand_amended :
    (∀ s : String, s.toList.contains lbrace = false → epsgGuardB s = true →
      from_string s =
        (match from_epsg (.ofStr (String.mk ((splitOnChars ':' s.toList).getD 1 []))) with
         | .error e => .error e
         | .ok m => .ok (.crs m))) ∧
    from_string "EPSG:4326" =
      .ok (.crs [("init", .pstr "epsg:4326"), ("no_defs", .pbool true)]) ∧
    from_epsg (.ofInt 4326) =
      .ok [("init", .pstr "epsg:4326"), ("no_defs", .pbool true)] := by
  refine ⟨?_, by decide, by decide⟩
  intro s h1 h2
  unfold from_string
  rw [h1]
  rw [if_neg (by simp), if_pos h2]

/-- Witness for C8: the delegation rule applied to `"EPSG:4326:7"` hands
the field `"4326"` to `from_epsg`. -/
theorem C8_epsg_shorthand_amended_witness :
    from_string "EPSG:4326:7" =
      (match from_epsg (.ofStr (String.mk ((splitOnChars ':' "EPSG:4326:7".toList).getD 1 []))) with
       | .error e => .error e
       | .ok m => .ok (.crs m)) :=
  C8_epsg_shorthand_amended.1 "EPSG:4326:7" (by decide) (by decide)

end Rasterio

namespace Rasterio

/-- Claim C9 (confirmed): the Parameter Vocabulary the source builds from
the reference table coincides (in both directions of membership) with the
spec's description — first whitespace token of every non-blank line,
leading `+` stripped, whitespace trimmed, deduplicated, plus the extra
literal key `"no_mayo"`; it has no duplicates, and membership is exact
case-sensitive comparison, so `"lat_0"` is a member while `"PROJ"` and
`"Lat_0"` are not. -/
theorem C9_vocab :
    (∀ k ∈ specVocab, k ∈ all_proj_keys) ∧ (∀ k ∈ all_proj_keys, k ∈ specVocab) ∧
    all_proj_keys.Nodup ∧ "no_mayo" ∈ all_proj_keys ∧
    "lat_0" ∈ all_proj_keys ∧ "PROJ" ∉ all_proj_keys ∧ "Lat_0" ∉ all_proj_keys := by
  refine ⟨by decide, by decide, by decide, by decide, by decide, by decide, by decide⟩

/-- Witness for C9: `"towgs84"` is produced by the spec's extraction rule
and is accepted by the source's vocabulary. -/
theorem C9_vocab_witness : "towgs84" ∈ all_proj_keys :=
  C9_vocab.1 "towgs84" (by decide)

/-- Claim C10 (confirmed): for every vocabulary key, an entry whose value
is the empty text string is rendered as the bare token `"+key"` (the empty
value is suppressed exactly like boolean true), while an entry whose value
is the integer 0 is kept and rendered as `"+key=0"` — the falsy integer 0
is not omitted. -/
theorem C10_encode_edge_cases :
    ∀ k ∈ all_proj_keys,
      to_string [(k, PVal.pstr "")] = "+" ++ k ∧
      to_string [(k, PVal.pint 0)] = "+" ++ k ++ "=0" := by
  intro k hk
  obtain ⟨hkne, hkchars⟩ := vocab_keys_good k hk
  have hkeep1 : keepItem (k, PVal.pstr "") = true := by
    simp [keepItem, isFalseB, isScalar]
    exact hk
  have hkeep2 : keepItem (k, PVal.pint 0) = true := by
    simp [keepItem, isFalseB, isScalar]
    exact hk
  constructor
  · have hf : List.filter keepItem [(k, PVal.pstr "")] = [(k, PVal.pstr "")] := by
      simp [hkeep1]
    unfold to_string
    rw [hf]
    show String.mk (renderChars (k, PVal.pstr "")) = _
    rw [renderChars_bare hkne (by rfl)]
    rfl
  · have hf : List.filter keepItem [(k, PVal.pint 0)] = [(k, PVal.pint 0)] := by
      simp [hkeep2]
    unfold to_string
    rw [hf]
    show String.mk (renderChars (k, PVal.pint 0)) = _
    rw [renderChars_val hkne (valKept_int 0)]
    rfl

/-- Witness for C10: the vocabulary key `"zone"` with the empty text value
renders bare, and with the integer 0 renders as `"+zone=0"`. -/
theorem C10_encode_edge_cases_witness :
    to_string [("zone", PVal.pstr "")] = "+zone" ∧
    to_string [("zone", PVal.pint 0)] = "+zone=0" := by
  have h := C10_encode_edge_cases "zone" (by decide)
  exact ⟨h.1.trans (by decide), h.2.trans (by decide)⟩

end Rasterio
